import Mathlib

/-!
# A verification development for the `oram-rust` Path ORAM

This file gives a shallow embedding of the Path ORAM implementation
(`src/oram/src/oram.rs`, `src/oram/src/bucket.rs`, `src/oram/bin/bench.rs`)
and proves properties about it.

Modelling decisions, faithful to the source:

* Rust `HashMap<u32, _>` fields (`Bucket.blocks`, `PathORAM.position_map`,
  `PathORAM.stash`) are modelled as association lists `List (Nat × _)` whose
  `insert` replaces an existing entry for the key in place and otherwise
  appends.  Rust's `HashMap` iteration order is unspecified; the model fixes
  insertion order as the canonical deterministic order.  All invariant and
  round-trip theorems below hold for any iteration order; only the concrete
  executions in the closed witness theorems depend on the chosen order, and
  the facts they exhibit (entry counts, emptiness of the stash) are
  independent of it.
* `u32`/`usize` values are modelled as `Nat`.  No arithmetic in the source
  can overflow for the parameter ranges involved (ids and positions are
  bounded by the configuration), so no `% 2^32` reduction is needed.
* A Rust panic (`Option::unwrap` on `None` in `access`, for the position-map
  lookup and for a `write` without payload) is modelled by the function
  returning `none`; a normal return of the Rust `Option<u32>` value `d`
  together with the mutated state `st` is modelled as `some (d, st)`.
* `rand::thread_rng().gen_range(0..k)` is modelled by injected randomness:
  the freshly drawn position is a parameter of `access`, and `new` takes two
  injected streams, one for the initial position map and one for the
  bootstrap accesses.  Theorems quantify over these streams, assuming only
  that drawn values are below `2 ^ tree_height` exactly as `gen_range`
  guarantees.
* `(num_blocks as f64).log2().ceil() as u32` is modelled by `ceilLog2`,
  a fuel-based structural computation of the ceiling of the base-2
  logarithm; for every `u32` input the floating-point computation is exact
  enough to agree with the mathematical ceiling.
* Indexing `self.tree[index]` out of bounds would panic in Rust; the model
  totalises it with `List.getD`/`List.set` (out-of-range reads yield an
  empty bucket and out-of-range writes are dropped).  All theorems below
  carry well-formedness hypotheses under which every tree index that
  `access` touches is in bounds, so the totalisation is never exercised.
-/

set_option maxHeartbeats 1000000

/-! ## Association-list primitives (model of `HashMap<u32, α>`) -/

/-- Lookup in an association list: the value of the first entry with the key. -/
def lookupA {α : Type} : List (Nat × α) → Nat → Option α
  | [], _ => none
  | (k, v) :: rest, i => if k = i then some v else lookupA rest i

/-- `HashMap::insert`: replace the entry for the key if present, else append. -/
def insertA {α : Type} : List (Nat × α) → Nat → α → List (Nat × α)
  | [], k, v => [(k, v)]
  | (k', v') :: rest, k, v =>
    if k' = k then (k, v) :: rest else (k', v') :: insertA rest k v

/-- `HashMap::remove`: drop the first entry with the key, if any. -/
def eraseA {α : Type} : List (Nat × α) → Nat → List (Nat × α)
  | [], _ => []
  | (k', v') :: rest, k => if k' = k then rest else (k', v') :: eraseA rest k

/-- Number of entries with the given key. -/
def countA {α : Type} : List (Nat × α) → Nat → Nat
  | [], _ => 0
  | (k, _) :: rest, i => (if k = i then 1 else 0) + countA rest i

/-! ## `block.rs` (not under `src/`; shape is forced by its uses in
`oram.rs`/`bucket.rs` and by the spec).

Modelled from the spec: `src/oram/src/block.rs` is not in the repository
snapshot, but the spec defines a Block as `{ id: integer >= 0, data: integer }`
with `id == 0` denoting a dummy, and `oram.rs` constructs it as
`Block { block_id: 0, data: 0 }` and clones/copies it freely. -/

structure Block where
  block_id : Nat
  data : Nat
deriving DecidableEq, Repr

/-- The dummy filler block `Block { block_id: 0, data: 0 }`. -/
def dummyBlock : Block := ⟨0, 0⟩

/-! ## `bucket.rs` -/

/-- A bucket: `blocks: HashMap<u32, Block>` keyed by block id, plus a
capacity.  (Keying by id is exactly what the source does; it makes several
dummy blocks collapse into the single key `0`.) -/
structure Bucket where
  blocks : List (Nat × Block)
  capacity : Nat
deriving DecidableEq, Repr

/-- `Bucket::new`. -/
def Bucket.new (capacity : Nat) : Bucket := ⟨[], capacity⟩

/-- The default bucket used to totalise out-of-range tree indexing. -/
def Bucket.empty : Bucket := ⟨[], 0⟩

/-- `Bucket::add_block`: if the bucket is at (or over) capacity, remove the
first key returned by the map's iterator (`keys().next().unwrap()` — a panic,
i.e. `none`, when the map is empty), then insert the new block under its id. -/
def Bucket.add_block (bk : Bucket) (b : Block) : Option Bucket :=
  if bk.capacity ≤ bk.blocks.length then
    match bk.blocks with
    | [] => none
    | (first_key, _) :: _ =>
      some ⟨insertA (eraseA bk.blocks first_key) b.block_id b, bk.capacity⟩
  else
    some ⟨insertA bk.blocks b.block_id b, bk.capacity⟩

/-- `Bucket::get_all_blocks`: the values of the map, in iteration order. -/
def Bucket.get_all_blocks (bk : Bucket) : List Block := bk.blocks.map Prod.snd

/-- `Bucket::replace_blocks`: clear, then insert the first `capacity` of the
supplied blocks, keyed by id. -/
def Bucket.replace_blocks (bk : Bucket) (new_blocks : List Block) : Bucket :=
  ⟨(new_blocks.take bk.capacity).foldl (fun m b => insertA m b.block_id b) [],
    bk.capacity⟩

/-! ## Tree indexing and tree height (`oram.rs`) -/

/-- `PathORAM::get_bucket_index`:
`((1 << level) - 1 + (leaf >> (tree_height - level)))`. -/
def get_bucket_index (tree_height leaf level : Nat) : Nat :=
  (1 <<< level) - 1 + (leaf >>> (tree_height - level))

/-- Fuel-driven ceiling base-2 logarithm,
`clog2 n = if n <= 1 then 0 else clog2 (ceil (n / 2)) + 1`. -/
def clog2Fuel : Nat → Nat → Nat
  | 0, _ => 0
  | fuel + 1, n => if n ≤ 1 then 0 else clog2Fuel fuel ((n + 1) / 2) + 1

/-- `(num_blocks as f64).log2().ceil() as u32`: the ceiling of the base-2
logarithm.  For every `u32` argument the double-precision computation in the
source is exact enough to round to the true ceiling. -/
def ceilLog2 (n : Nat) : Nat := clog2Fuel n n

/-! ## `PathORAM` state and `access` (`oram.rs`) -/

/-- The Path ORAM state, mirroring `struct PathORAM`. -/
structure PathORAM where
  tree : List Bucket
  position_map : List (Nat × Nat)
  stash : List (Nat × Block)
  capacity : Nat
  tree_height : Nat
deriving DecidableEq, Repr

/-- One step of the path-read phase: a non-dummy block found in a bucket is
inserted into the stash (`if block.block_id != 0 { stash.insert(...) }`). -/
def stashInsertReal (s : List (Nat × Block)) (b : Block) : List (Nat × Block) :=
  if b.block_id ≠ 0 then insertA s b.block_id b else s

/-- Path-read phase, one level: read the bucket at
`get_bucket_index old_position level` and move its real blocks to the stash. -/
def readLevel (tree : List Bucket) (th old_position : Nat)
    (s : List (Nat × Block)) (level : Nat) : List (Nat × Block) :=
  ((tree.getD (get_bucket_index th old_position level) Bucket.empty).get_all_blocks).foldl
    stashInsertReal s

/-- Path-read phase: `for level in 0..=tree_height { ... }`. -/
def readPathStash (tree : List Bucket) (th old_position : Nat)
    (stash : List (Nat × Block)) : List (Nat × Block) :=
  (List.range (th + 1)).foldl (readLevel tree th old_position) stash

/-- The write-back selection loop over the stash: push each eligible block
(one whose current position maps through this bucket) and break as soon as
`capacity` many have been pushed. -/
def selectLoop (pm : List (Nat × Nat)) (cap th index level : Nat) :
    List (Nat × Block) → List Block → List Block
  | [], selected => selected
  | (_, b) :: rest, selected =>
    match lookupA pm b.block_id with
    | some pos =>
      if get_bucket_index th pos level = index then
        if cap ≤ (selected ++ [b]).length then selected ++ [b]
        else selectLoop pm cap th index level rest (selected ++ [b])
      else selectLoop pm cap th index level rest selected
    | none => selectLoop pm cap th index level rest selected

/-- Write-back at one level: select up to `capacity` eligible stash blocks,
remove them from the stash, pad with dummies to `capacity`, and replace the
bucket's contents. -/
def evictLevel (cap th old_position : Nat) (pm : List (Nat × Nat))
    (ts : List Bucket × List (Nat × Block)) (level : Nat) :
    List Bucket × List (Nat × Block) :=
  let index := get_bucket_index th old_position level
  let selected := selectLoop pm cap th index level ts.2 []
  let stash' := selected.foldl (fun s b => eraseA s b.block_id) ts.2
  let padded := selected ++ List.replicate (cap - selected.length) dummyBlock
  (ts.1.set index ((ts.1.getD index Bucket.empty).replace_blocks padded), stash')

/-- `PathORAM::access`.  The freshly drawn `new_position`
(`rng.gen_range(0..(1 << tree_height))` in the source) is injected as an
argument.  Returns `none` when the Rust code would panic (unknown id, or a
write without payload), and otherwise `some` of the returned `Option<u32>`
and the mutated state. -/
def PathORAM.access (st : PathORAM) (op : String) (block_id : Nat)
    (new_data : Option Nat) (new_position : Nat) :
    Option (Option Nat × PathORAM) :=
  match lookupA st.position_map block_id with
  | none => none
  | some old_position =>
    let stash1 := readPathStash st.tree st.tree_height old_position st.stash
    let data := (lookupA stash1 block_id).map Block.data
    let stash2? : Option (List (Nat × Block)) :=
      if op = "write" then
        match new_data with
        | none => none
        | some v => some (insertA stash1 block_id ⟨block_id, v⟩)
      else some stash1
    match stash2? with
    | none => none
    | some stash2 =>
      let pm' := insertA st.position_map block_id new_position
      let ts := ((List.range (st.tree_height + 1)).reverse).foldl
        (evictLevel st.capacity st.tree_height old_position pm') (st.tree, stash2)
      some (data, { tree := ts.1, position_map := pm', stash := ts.2,
                    capacity := st.capacity, tree_height := st.tree_height })

/-- The initial bucket of `PathORAM::new`: start from `Bucket::new(capacity)`
and `add_block` a dummy `capacity` times. -/
def initBucket (capacity : Nat) : Option Bucket :=
  (List.range capacity).foldlM (fun bk _ => bk.add_block dummyBlock)
    (Bucket.new capacity)

/-- The initial position map of `PathORAM::new`:
`for block_id in 1..=num_blocks { position_map.insert(block_id, rng(...)) }`. -/
def initPositionMap (num_blocks : Nat) (initPos : Nat → Nat) : List (Nat × Nat) :=
  (List.range num_blocks).foldl (fun pm i => insertA pm (i + 1) (initPos (i + 1))) []

/-- The state of `PathORAM::new` before the bootstrap write pass. -/
def initState (num_blocks capacity : Nat) (initPos : Nat → Nat) (bk : Bucket) :
    PathORAM :=
  { tree := List.replicate (2 ^ (ceilLog2 num_blocks + 1) - 1) bk,
    position_map := initPositionMap num_blocks initPos,
    stash := [],
    capacity := capacity,
    tree_height := ceilLog2 num_blocks }

/-- `PathORAM::new`: build the dummy-filled tree and randomized position map,
then bootstrap with `access("write", block_id, Some(0))` for each id. -/
def PathORAM.new (num_blocks capacity : Nat) (initPos bootPos : Nat → Nat) :
    Option PathORAM :=
  match initBucket capacity with
  | none => none
  | some bk =>
    (List.range num_blocks).foldlM
      (fun st i => (PathORAM.access st "write" (i + 1) (some 0) (bootPos (i + 1))).map
        Prod.snd)
      (initState num_blocks capacity initPos bk)

/-! ## Derived observation functions (specification level, not in the
source): where a block id lives and with what data. -/

/-- Sum of the per-bucket entry counts for key `j`, over a list of tree
indices. -/
def treeCountIdx (tree : List Bucket) (ts : List Nat) (j : Nat) : Nat :=
  (ts.map (fun t => countA (tree.getD t Bucket.empty).blocks j)).sum

/-- Total number of entries with key `j` anywhere in the structure. -/
def totalCount (st : PathORAM) (j : Nat) : Nat :=
  countA st.stash j + treeCountIdx st.tree (List.range st.tree.length) j

/-- The first bucket (in index order over `ts`) holding key `j`, if any. -/
def treeFindIdx (tree : List Bucket) (j : Nat) : List Nat → Option Block
  | [] => none
  | t :: ts =>
    match lookupA (tree.getD t Bucket.empty).blocks j with
    | some b => some b
    | none => treeFindIdx tree j ts

/-- The block currently holding id `j`: the stash entry if present, else the
first tree occurrence.  Under the placement invariant the occurrence is
unique, so this is the logical content of block `j`. -/
def logicalBlock (st : PathORAM) (j : Nat) : Option Block :=
  match lookupA st.stash j with
  | some b => some b
  | none => treeFindIdx st.tree j (List.range st.tree.length)

/-- The logical data value of block `j`. -/
def logicalVal (st : PathORAM) (j : Nat) : Option Nat :=
  (logicalBlock st j).map Block.data

/-- The indices of the root-to-leaf path for position `pos`. -/
def pathIdxList (th pos : Nat) : List Nat :=
  (List.range (th + 1)).map (get_bucket_index th pos)

/-- Number of occurrences of id `i` in the buckets on the path to its
current position-map leaf. -/
def pathCount (st : PathORAM) (i : Nat) : Nat :=
  match lookupA st.position_map i with
  | none => 0
  | some pos => treeCountIdx st.tree (pathIdxList st.tree_height pos) i

/-- Id `i` is present in exactly one place: counting the stash and the
buckets on the path to `PositionMap[i]`, the total is one. -/
def exactlyOnePlace (st : PathORAM) (i : Nat) : Prop :=
  countA st.stash i + pathCount st i = 1

/-! ## The state invariant -/

/-- Association-list hygiene and structural well-formedness of a state. -/
def Hygiene (st : PathORAM) : Prop :=
  (st.stash.map Prod.fst).Nodup ∧
  (∀ p ∈ st.stash, p.2.block_id = p.1) ∧
  (∀ p ∈ st.stash, p.1 ≠ 0) ∧
  (∀ p ∈ st.stash, (lookupA st.position_map p.1).isSome) ∧
  (st.position_map.map Prod.fst).Nodup ∧
  (∀ bk ∈ st.tree, (bk.blocks.map Prod.fst).Nodup) ∧
  (∀ bk ∈ st.tree, ∀ p ∈ bk.blocks, p.2.block_id = p.1) ∧
  (∀ bk ∈ st.tree, bk.capacity = st.capacity) ∧
  st.tree.length = 2 ^ (st.tree_height + 1) - 1 ∧
  1 ≤ st.capacity

/-- The position map registers exactly the ids `1..=N`. -/
def PMDomain (N : Nat) (st : PathORAM) : Prop :=
  (∀ p ∈ st.position_map, 1 ≤ p.1 ∧ p.1 ≤ N) ∧
  (∀ i ∈ List.range N, (lookupA st.position_map (i + 1)).isSome)

/-- Every mapped position is a leaf number below `2 ^ tree_height`. -/
def PMRange (st : PathORAM) : Prop :=
  ∀ p ∈ st.position_map, p.2 < 2 ^ st.tree_height

/-- Each registered id occurs exactly once if `placed`, else nowhere.
(`placed` distinguishes blocks already written by the bootstrap pass.) -/
def Placement (placed : Nat → Bool) (st : PathORAM) : Prop :=
  ∀ p ∈ st.position_map, totalCount st p.1 = (if placed p.1 then 1 else 0)

/-- Every real block stored in the tree is registered and lies on the path
to its own current position-map leaf. -/
def OnOwnPath (st : PathORAM) : Prop :=
  ∀ t ∈ List.range st.tree.length,
    ∀ p ∈ (st.tree.getD t Bucket.empty).blocks, p.1 ≠ 0 →
      (lookupA st.position_map p.1).isSome ∧
      ∃ lvl ∈ List.range (st.tree_height + 1),
        t = get_bucket_index st.tree_height
          ((lookupA st.position_map p.1).getD 0) lvl

/-- The full state invariant. -/
def OramInv (N : Nat) (placed : Nat → Bool) (st : PathORAM) : Prop :=
  Hygiene st ∧ PMDomain N st ∧ PMRange st ∧ Placement placed st ∧ OnOwnPath st

/-! ## Request sequences -/

/-- One access request, with its injected random position. -/
structure Req where
  op : String
  id : Nat
  data : Option Nat
  pos : Nat
deriving DecidableEq, Repr

/-- A request that cannot make `access` panic on a well-formed instance. -/
def ValidReq (N th : Nat) (r : Req) : Prop :=
  1 ≤ r.id ∧ r.id ≤ N ∧ r.pos < 2 ^ th ∧ (r.op = "write" → r.data.isSome)

/-- Run a sequence of accesses, discarding the returned values. -/
def runOps (st : PathORAM) : List Req → Option PathORAM
  | [] => some st
  | r :: rs =>
    match st.access r.op r.id r.data r.pos with
    | none => none
    | some (_, st') => runOps st' rs

/-! ## Write-back loop invariant (proof infrastructure) -/

/-- Tree indices of the still-unprocessed write-back levels. -/
def remIdxs (th old : Nat) (levels : List Nat) : List Nat :=
  levels.map (get_bucket_index th old)

/-- The tree indices not among `rem` (the buckets whose contents are
already final during the write-back pass). -/
def nonRem (len : Nat) (rem : List Nat) : List Nat :=
  (List.range len).filter (fun t => decide (t ∉ rem))

/-- Occurrences of `j` in the stash or in an already-final bucket. -/
def liveCount (tree : List Bucket) (stash : List (Nat × Block))
    (rem : List Nat) (j : Nat) : Nat :=
  countA stash j + treeCountIdx tree (nonRem tree.length rem) j

/-- Invariant of the write-back fold: `levels` are the levels still to be
processed; `pm` is the already-updated position map; `target j` is the block
that should end up holding id `j`. -/
structure WBInv (pm : List (Nat × Nat)) (target : Nat → Option Block)
    (placed : Nat → Bool) (cap th old : Nat) (levels : List Nat)
    (tree : List Bucket) (stash : List (Nat × Block)) : Prop where
  stash_nodup : (stash.map Prod.fst).Nodup
  stash_keyed : ∀ p ∈ stash, p.2.block_id = p.1
  stash_nz : ∀ p ∈ stash, p.1 ≠ 0
  stash_reg : ∀ p ∈ stash, (lookupA pm p.1).isSome
  bk_nodup : ∀ bk ∈ tree, (bk.blocks.map Prod.fst).Nodup
  bk_keyed : ∀ bk ∈ tree, ∀ p ∈ bk.blocks, p.2.block_id = p.1
  bk_cap : ∀ bk ∈ tree, bk.capacity = cap
  tree_len : tree.length = 2 ^ (th + 1) - 1
  counts : ∀ p ∈ pm, liveCount tree stash (remIdxs th old levels) p.1 =
    (if placed p.1 then 1 else 0)
  onpath : ∀ t ∈ nonRem tree.length (remIdxs th old levels),
    ∀ p ∈ (tree.getD t Bucket.empty).blocks, p.1 ≠ 0 →
      (lookupA pm p.1).isSome ∧
      ∃ lvl ∈ List.range (th + 1),
        t = get_bucket_index th ((lookupA pm p.1).getD 0) lvl
  stash_target : ∀ p ∈ stash, target p.1 = some p.2
  tree_target : ∀ t ∈ nonRem tree.length (remIdxs th old levels),
    ∀ p ∈ (tree.getD t Bucket.empty).blocks, p.1 ≠ 0 → target p.1 = some p.2

/-! ## `bench.rs` stash-statistics tabulation -/

/-- The `stash_sizes` histogram: a vector of `len` zeroed counters, bumped at
index `stash_size` once per measured access (`stash_sizes[stash_size] += 1`;
an out-of-range size would panic in Rust and is dropped by `List.set`, but
`len` is the total access count there, which the stash size never reaches). -/
def stashHistogram (measured : List Nat) (len : Nat) : List Nat :=
  measured.foldl (fun v s => v.set s (v.getD s 0 + 1)) (List.replicate len 0)

/-- The `stash_data` table of `run_oram_benchmark`: first the pair
`(-1, number of measured accesses)`, then for each `i` the pair
`(i, running_sum)` where `running_sum` starts at the histogram total and has
`stash_sizes[i]` subtracted only after the pair is pushed. -/
def benchStashData (measured : List Nat) (len : Nat) : List (Int × Nat) :=
  let sizes := stashHistogram measured len
  ((-1 : Int), measured.length) ::
    ((List.range sizes.length).foldl
      (fun (acc : List (Int × Nat) × Nat) i =>
        (acc.1 ++ [(Int.ofNat i, acc.2)], acc.2 - sizes.getD i 0))
      ([], sizes.sum)).1

/-- The lines actually written to the file: pairs with a nonzero count. -/
def benchLines (measured : List Nat) (len : Nat) : List (Int × Nat) :=
  (benchStashData measured len).filter (fun p => decide (0 < p.2))

/-- The spec's tabulation rule for comparison, following the claim's words:
the count paired with `R` is the number of measured accesses whose stash
size was strictly greater than `R`. -/
def specCountStrictlyGreater (measured : List Nat) (R : Int) : Nat :=
  (measured.filter (fun s => decide (R < (s : Int)))).length

/-! ## Concrete instances used by witnesses and counterexamples -/

/-- The all-zeroes injected randomness stream. -/
def zeroRng : Nat → Nat := fun _ => 0

/-- The state `PathORAM::new(1, 1)` produces under all-zero randomness. -/
def oram11 : PathORAM :=
  { tree := [⟨[(1, ⟨1, 0⟩)], 1⟩],
    position_map := [(1, 0)],
    stash := [],
    capacity := 1,
    tree_height := 0 }

/-- The pre-bootstrap state of `PathORAM::new(1, 1)` under zero randomness:
block 1 is registered but not yet placed anywhere. -/
def preBoot11 : PathORAM :=
  { tree := [⟨[(0, dummyBlock)], 1⟩],
    position_map := [(1, 0)],
    stash := [],
    capacity := 1,
    tree_height := 0 }

/-- The state `PathORAM::new(4, 4)` produces under all-zero randomness:
all four blocks sit in the leaf-0 bucket (index 3), the stash is empty. -/
def oram44 : PathORAM :=
  { tree := [⟨[(0, dummyBlock)], 4⟩, ⟨[(0, dummyBlock)], 4⟩, ⟨[(0, dummyBlock)], 4⟩,
             ⟨[(1, ⟨1, 0⟩), (2, ⟨2, 0⟩), (3, ⟨3, 0⟩), (4, ⟨4, 0⟩)], 4⟩,
             ⟨[(0, dummyBlock)], 4⟩, ⟨[(0, dummyBlock)], 4⟩, ⟨[(0, dummyBlock)], 4⟩],
    position_map := [(1, 0), (2, 0), (3, 0), (4, 0)],
    stash := [],
    capacity := 4,
    tree_height := 2 }

/-- The state `access` produces after the write-back fold (proof-side
abbreviation: `access` returns exactly this record, with `stash2` the stash
after the path-read phase and the possible write). -/
def accessPost (st : PathORAM) (id pos old : Nat)
    (stash2 : List (Nat × Block)) : PathORAM :=
  { tree := (((List.range (st.tree_height + 1)).reverse).foldl
      (evictLevel st.capacity st.tree_height old (insertA st.position_map id pos))
      (st.tree, stash2)).1,
    position_map := insertA st.position_map id pos,
    stash := (((List.range (st.tree_height + 1)).reverse).foldl
      (evictLevel st.capacity st.tree_height old (insertA st.position_map id pos))
      (st.tree, stash2)).2,
    capacity := st.capacity,
    tree_height := st.tree_height }

/-! ## Decidability of the invariants (for concrete instances) -/

instance (st : PathORAM) : Decidable (Hygiene st) := by
  unfold Hygiene
  infer_instance

instance (N : Nat) (st : PathORAM) : Decidable (PMDomain N st) := by
  unfold PMDomain
  infer_instance

instance (st : PathORAM) : Decidable (PMRange st) := by
  unfold PMRange
  infer_instance

instance (placed : Nat → Bool) (st : PathORAM) : Decidable (Placement placed st) := by
  unfold Placement
  infer_instance

instance (st : PathORAM) : Decidable (OnOwnPath st) := by
  unfold OnOwnPath
  infer_instance

instance (N : Nat) (placed : Nat → Bool) (st : PathORAM) :
    Decidable (OramInv N placed st) := by
  unfold OramInv
  infer_instance

instance (N th : Nat) (r : Req) : Decidable (ValidReq N th r) := by
  unfold ValidReq
  infer_instance

instance (st : PathORAM) (i : Nat) : Decidable (exactlyOnePlace st i) := by
  unfold exactlyOnePlace
  infer_instance

/-! # Theorems -/

/-! ## Association-list lemmas -/

theorem lookupA_insertA_self {α : Type} (l : List (Nat × α)) (k : Nat) (v : α) :
    lookupA (insertA l k v) k = some v := by
  induction l with
  | nil => simp [insertA, lookupA]
  | cons p rest ih =>
    by_cases h : p.1 = k
    · simp [insertA, h, lookupA]
    · simp [insertA, h, lookupA, ih]

theorem lookupA_insertA_ne {α : Type} (l : List (Nat × α)) {j k : Nat} (v : α)
    (h : j ≠ k) : lookupA (insertA l k v) j = lookupA l j := by
  have hkj : ¬ k = j := fun hh => h hh.symm
  induction l with
  | nil => simp [insertA, lookupA, hkj]
  | cons p rest ih =>
    by_cases hk : p.1 = k
    · simp [insertA, hk, lookupA, hkj]
    · simp [insertA, hk, lookupA, ih]

theorem lookupA_eraseA_ne {α : Type} (l : List (Nat × α)) {j k : Nat}
    (h : j ≠ k) : lookupA (eraseA l k) j = lookupA l j := by
  have hkj : ¬ k = j := fun hh => h hh.symm
  induction l with
  | nil => simp [eraseA]
  | cons p rest ih =>
    by_cases hk : p.1 = k
    · have hpj : ¬ p.1 = j := by rw [hk]; exact hkj
      simp [eraseA, hk, lookupA, hpj, hkj]
    · simp [eraseA, hk, lookupA, ih]

theorem mem_insertA {α : Type} {l : List (Nat × α)} {k : Nat} {v : α}
    {p : Nat × α} (h : p ∈ insertA l k v) : p = (k, v) ∨ p ∈ l := by
  induction l with
  | nil => simpa [insertA] using h
  | cons q rest ih =>
    by_cases hk : q.1 = k
    · simp only [insertA, hk, if_true] at h
      rcases List.mem_cons.mp h with h1 | h1
      · exact Or.inl h1
      · exact Or.inr (List.mem_cons_of_mem _ h1)
    · simp only [insertA, hk, if_false] at h
      rcases List.mem_cons.mp h with h1 | h1
      · exact Or.inr (h1 ▸ List.mem_cons_self _ _)
      · rcases ih h1 with h2 | h2
        · exact Or.inl h2
        · exact Or.inr (List.mem_cons_of_mem _ h2)

theorem mem_eraseA {α : Type} {l : List (Nat × α)} {k : Nat} {p : Nat × α}
    (h : p ∈ eraseA l k) : p ∈ l := by
  induction l with
  | nil => simp [eraseA] at h
  | cons q rest ih =>
    by_cases hk : q.1 = k
    · simp only [eraseA, hk, if_true] at h
      exact List.mem_cons_of_mem _ h
    · simp only [eraseA, hk, if_false] at h
      rcases List.mem_cons.mp h with h1 | h1
      · exact h1 ▸ List.mem_cons_self _ _
      · exact List.mem_cons_of_mem _ (ih h1)

theorem keys_insertA_of_not_mem {α : Type} (l : List (Nat × α)) (k : Nat)
    (v : α) : k ∉ l.map Prod.fst →
    (insertA l k v).map Prod.fst = l.map Prod.fst ++ [k] := by
  induction l with
  | nil => intro _; simp [insertA]
  | cons q rest ih =>
    intro h
    simp only [List.map_cons, List.mem_cons] at h
    push_neg at h
    have hk : ¬ q.1 = k := fun hh => h.1 hh.symm
    simp [insertA, hk, ih h.2]

theorem keys_insertA_of_mem {α : Type} (l : List (Nat × α)) (k : Nat)
    (v : α) : k ∈ l.map Prod.fst →
    (insertA l k v).map Prod.fst = l.map Prod.fst := by
  induction l with
  | nil => intro h; simp at h
  | cons q rest ih =>
    intro h
    by_cases hk : q.1 = k
    · simp [insertA, hk]
    · simp only [List.map_cons, List.mem_cons] at h
      rcases h with h | h
      · exact absurd h.symm hk
      · simp [insertA, hk, ih h]

theorem nodupKeys_insertA {α : Type} {l : List (Nat × α)} (k : Nat) (v : α)
    (h : (l.map Prod.fst).Nodup) : ((insertA l k v).map Prod.fst).Nodup := by
  by_cases hm : k ∈ l.map Prod.fst
  · rw [keys_insertA_of_mem l k v hm]; exact h
  · rw [keys_insertA_of_not_mem l k v hm]
    refine List.Nodup.append h (List.nodup_singleton k) ?_
    intro a ha hb
    simp only [List.mem_singleton] at hb
    exact hm (hb ▸ ha)

theorem keys_eraseA_sublist {α : Type} (l : List (Nat × α)) (k : Nat) :
    ((eraseA l k).map Prod.fst).Sublist (l.map Prod.fst) := by
  induction l with
  | nil => simp [eraseA]
  | cons q rest ih =>
    by_cases hk : q.1 = k
    · simp only [eraseA, hk, if_true, List.map_cons]
      exact List.Sublist.cons _ (List.Sublist.refl _)
    · simp only [eraseA, hk, if_false, List.map_cons]
      exact List.Sublist.cons₂ _ ih

theorem nodupKeys_eraseA {α : Type} {l : List (Nat × α)} (k : Nat)
    (h : (l.map Prod.fst).Nodup) : ((eraseA l k).map Prod.fst).Nodup :=
  (keys_eraseA_sublist l k).nodup h

theorem lookupA_eq_none_iff {α : Type} (l : List (Nat × α)) (j : Nat) :
    lookupA l j = none ↔ j ∉ l.map Prod.fst := by
  induction l with
  | nil => simp [lookupA]
  | cons q rest ih =>
    by_cases hj : q.1 = j
    · simp [lookupA, hj]
    · have : ¬ j = q.1 := fun hh => hj hh.symm
      simp [lookupA, hj, ih, this]

theorem lookupA_isSome_iff_mem {α : Type} (l : List (Nat × α)) (j : Nat) :
    (lookupA l j).isSome ↔ j ∈ l.map Prod.fst := by
  rcases h : lookupA l j with _ | v
  · simpa using (lookupA_eq_none_iff l j).mp h
  · simp only [Option.isSome_some, true_iff]
    by_contra hm
    rw [(lookupA_eq_none_iff l j).mpr hm] at h
    exact Option.noConfusion h

theorem lookupA_mem {α : Type} {l : List (Nat × α)} {j : Nat} {v : α}
    (h : lookupA l j = some v) : (j, v) ∈ l := by
  induction l with
  | nil => simp [lookupA] at h
  | cons q rest ih =>
    by_cases hj : q.1 = j
    · simp only [lookupA, hj, if_true, Option.some_inj] at h
      have hq : q = (j, v) := by
        cases q
        simp_all
      exact hq ▸ List.mem_cons_self _ _
    · simp only [lookupA, hj, if_false] at h
      exact List.mem_cons_of_mem _ (ih h)

theorem lookupA_of_mem_nodup {α : Type} {l : List (Nat × α)} {j : Nat} {v : α}
    (hnd : (l.map Prod.fst).Nodup) (h : (j, v) ∈ l) : lookupA l j = some v := by
  induction l with
  | nil => simp at h
  | cons q rest ih =>
    simp only [List.map_cons, List.nodup_cons] at hnd
    rcases List.mem_cons.mp h with h | h
    · simp [lookupA, ← h]
    · have hj : ¬ q.1 = j := by
        intro hq
        exact hnd.1 (hq ▸ List.mem_map.mpr ⟨(j, v), h, rfl⟩)
      simp [lookupA, hj, ih hnd.2 h]

theorem countA_eq_zero_iff {α : Type} (l : List (Nat × α)) (j : Nat) :
    countA l j = 0 ↔ j ∉ l.map Prod.fst := by
  induction l with
  | nil => simp [countA]
  | cons q rest ih =>
    by_cases hj : q.1 = j
    · simp [countA, hj]
    · have : ¬ j = q.1 := fun hh => hj hh.symm
      simp [countA, hj, ih, this]

theorem countA_pos_of_mem {α : Type} {l : List (Nat × α)} {j : Nat} {v : α}
    (h : (j, v) ∈ l) : 1 ≤ countA l j := by
  rcases Nat.eq_zero_or_pos (countA l j) with h0 | h0
  · exact absurd (List.mem_map.mpr ⟨(j, v), h, rfl⟩) ((countA_eq_zero_iff l j).mp h0)
  · exact h0

theorem countA_of_nodup {α : Type} {l : List (Nat × α)} (j : Nat)
    (hnd : (l.map Prod.fst).Nodup) :
    countA l j = if j ∈ l.map Prod.fst then 1 else 0 := by
  induction l with
  | nil => simp [countA]
  | cons q rest ih =>
    simp only [List.map_cons, List.nodup_cons] at hnd
    by_cases hj : q.1 = j
    · have hnr : j ∉ rest.map Prod.fst := hj ▸ hnd.1
      simp [countA, hj, (countA_eq_zero_iff rest j).mpr hnr, hnr]
    · have hjq : ¬ j = q.1 := fun hh => hj hh.symm
      by_cases hm : j ∈ rest.map Prod.fst <;>
        simp [countA, hj, ih hnd.2, hjq, List.mem_cons, hm]

theorem countA_le_one_of_nodup {α : Type} {l : List (Nat × α)} (j : Nat)
    (hnd : (l.map Prod.fst).Nodup) : countA l j ≤ 1 := by
  rw [countA_of_nodup j hnd]
  split <;> omega

theorem countA_one_of_lookup {α : Type} {l : List (Nat × α)} {j : Nat} {v : α}
    (hnd : (l.map Prod.fst).Nodup) (h : lookupA l j = some v) : countA l j = 1 := by
  rw [countA_of_nodup j hnd, if_pos]
  exact (lookupA_isSome_iff_mem l j).mp (h ▸ rfl)

theorem countA_zero_of_lookup_none {α : Type} {l : List (Nat × α)} {j : Nat}
    (h : lookupA l j = none) : countA l j = 0 :=
  (countA_eq_zero_iff l j).mpr ((lookupA_eq_none_iff l j).mp h)

theorem lookupA_none_of_countA_zero {α : Type} {l : List (Nat × α)} {j : Nat}
    (h : countA l j = 0) : lookupA l j = none :=
  (lookupA_eq_none_iff l j).mpr ((countA_eq_zero_iff l j).mp h)

theorem lookupA_of_countA_one_mem {α : Type} {l : List (Nat × α)} {j : Nat} {v : α}
    (hc : countA l j = 1) (h : (j, v) ∈ l) : lookupA l j = some v := by
  induction l with
  | nil => simp at h
  | cons q rest ih =>
    by_cases hj : q.1 = j
    · simp only [countA, hj, if_true] at hc
      rcases List.mem_cons.mp h with h | h
      · simp [lookupA, hj, ← h]
      · exact absurd (countA_pos_of_mem h) (by omega)
    · simp only [countA, hj, if_false, Nat.zero_add] at hc
      rcases List.mem_cons.mp h with h | h
      · exact absurd (congrArg Prod.fst h.symm) hj
      · simp [lookupA, hj, ih hc h]

theorem countA_eraseA_le {α : Type} (l : List (Nat × α)) (k j : Nat) :
    countA (eraseA l k) j ≤ countA l j := by
  induction l with
  | nil => simp [eraseA]
  | cons q rest ih =>
    by_cases hk : q.1 = k
    · simp only [eraseA, hk, if_true, countA]
      omega
    · simp only [eraseA, hk, if_false, countA]
      omega

theorem countA_eraseA_ne {α : Type} (l : List (Nat × α)) {k j : Nat} (h : j ≠ k) :
    countA (eraseA l k) j = countA l j := by
  induction l with
  | nil => simp [eraseA]
  | cons q rest ih =>
    by_cases hk : q.1 = k
    · have hkj : ¬ k = j := fun hh => h hh.symm
      have hqj : ¬ q.1 = j := by rw [hk]; exact hkj
      simp [eraseA, hk, countA, hqj, hkj]
    · simp [eraseA, hk, countA, ih]

theorem countA_eraseA_self_of_nodup {α : Type} {l : List (Nat × α)} (k : Nat)
    (hnd : (l.map Prod.fst).Nodup) : countA (eraseA l k) k = 0 := by
  induction l with
  | nil => simp [eraseA, countA]
  | cons q rest ih =>
    simp only [List.map_cons, List.nodup_cons] at hnd
    by_cases hk : q.1 = k
    · simp only [eraseA, hk, if_true]
      exact (countA_eq_zero_iff rest k).mpr (hk ▸ hnd.1)
    · simp only [eraseA, hk, if_false, countA, if_neg hk, Nat.zero_add]
      exact ih hnd.2

/-! ## Erase-fold lemmas (removing the selected blocks from the stash) -/

theorem mem_erase_fold {sel : List Block} {stash : List (Nat × Block)}
    {p : Nat × Block}
    (h : p ∈ sel.foldl (fun s b => eraseA s b.block_id) stash) : p ∈ stash := by
  induction sel generalizing stash with
  | nil => simpa using h
  | cons b rest ih => exact mem_eraseA (ih h)

theorem nodupKeys_erase_fold {sel : List Block} {stash : List (Nat × Block)}
    (hnd : (stash.map Prod.fst).Nodup) :
    (((sel.foldl (fun s b => eraseA s b.block_id) stash)).map Prod.fst).Nodup := by
  induction sel generalizing stash with
  | nil => simpa using hnd
  | cons b rest ih => exact ih (nodupKeys_eraseA _ hnd)

theorem countA_erase_fold_le (sel : List Block) (stash : List (Nat × Block))
    (j : Nat) :
    countA (sel.foldl (fun s b => eraseA s b.block_id) stash) j ≤ countA stash j := by
  induction sel generalizing stash with
  | nil => simp
  | cons b rest ih => exact le_trans (ih _) (countA_eraseA_le stash _ j)

theorem countA_erase_fold {sel : List Block} {stash : List (Nat × Block)}
    (j : Nat) (hnd : (stash.map Prod.fst).Nodup) :
    countA (sel.foldl (fun s b => eraseA s b.block_id) stash) j =
      if j ∈ sel.map Block.block_id then 0 else countA stash j := by
  induction sel generalizing stash with
  | nil => simp
  | cons b rest ih =>
    by_cases hb : j = b.block_id
    · simp only [List.foldl_cons, List.map_cons, List.mem_cons, hb, true_or, if_true]
      have h0 : countA (eraseA stash b.block_id) b.block_id = 0 :=
        countA_eraseA_self_of_nodup _ hnd
      have := countA_erase_fold_le rest (eraseA stash b.block_id) b.block_id
      omega
    · have hstep : countA (eraseA stash b.block_id) j = countA stash j :=
        countA_eraseA_ne stash hb
    
      simp only [List.foldl_cons, List.map_cons, List.mem_cons]
      rw [ih (nodupKeys_eraseA _ hnd), hstep]
      by_cases hm : j ∈ rest.map Block.block_id <;> simp [hm, hb]

theorem lookupA_erase_fold {sel : List Block} {stash : List (Nat × Block)}
    (j : Nat) (hnd : (stash.map Prod.fst).Nodup) :
    lookupA (sel.foldl (fun s b => eraseA s b.block_id) stash) j =
      if j ∈ sel.map Block.block_id then none else lookupA stash j := by
  induction sel generalizing stash with
  | nil => simp
  | cons b rest ih =>
    by_cases hb : j = b.block_id
    · simp only [List.foldl_cons, List.map_cons, List.mem_cons, hb, true_or, if_true]
      have h0 : countA (eraseA stash b.block_id) b.block_id = 0 :=
        countA_eraseA_self_of_nodup _ hnd
      have hle := countA_erase_fold_le rest (eraseA stash b.block_id) b.block_id
      exact lookupA_none_of_countA_zero (by omega)
    · simp only [List.foldl_cons, List.map_cons, List.mem_cons]
      rw [ih (nodupKeys_eraseA _ hnd), lookupA_eraseA_ne stash hb]
      simp [hb]

/-! ## Insert-fold lemmas (rebuilding a bucket from a block list) -/

theorem mem_insert_fold {bs : List Block} {init : List (Nat × Block)}
    {p : Nat × Block}
    (h : p ∈ bs.foldl (fun m b => insertA m b.block_id b) init) :
    p ∈ init ∨ ∃ b ∈ bs, p = (b.block_id, b) := by
  induction bs generalizing init with
  | nil => exact Or.inl (by simpa using h)
  | cons b rest ih =>
    simp only [List.foldl_cons] at h
    rcases ih h with h1 | h1
    · rcases mem_insertA h1 with h2 | h2
      · exact Or.inr ⟨b, List.mem_cons_self _ _, h2⟩
      · exact Or.inl h2
    · rcases h1 with ⟨b', hb', hp⟩
      exact Or.inr ⟨b', List.mem_cons_of_mem _ hb', hp⟩

theorem nodupKeys_insert_fold {bs : List Block} {init : List (Nat × Block)}
    (hnd : (init.map Prod.fst).Nodup) :
    ((bs.foldl (fun m b => insertA m b.block_id b) init).map Prod.fst).Nodup := by
  induction bs generalizing init with
  | nil => simpa using hnd
  | cons b rest ih => exact ih (nodupKeys_insertA _ _ hnd)

theorem lookupA_insert_fold_not_mem {bs : List Block} {init : List (Nat × Block)}
    {j : Nat} (h : ∀ b ∈ bs, b.block_id ≠ j) :
    lookupA (bs.foldl (fun m b => insertA m b.block_id b) init) j = lookupA init j := by
  induction bs generalizing init with
  | nil => simp
  | cons b rest ih =>
    simp only [List.foldl_cons]
    rw [ih (fun b' hb' => h b' (List.mem_cons_of_mem _ hb')),
      lookupA_insertA_ne init _ (fun hh => h b (List.mem_cons_self _ _) hh.symm)]

theorem lookupA_insert_fold_mem {bs : List Block} {init : List (Nat × Block)}
    {b : Block} (hnd : (bs.map Block.block_id).Nodup) (hb : b ∈ bs) :
    lookupA (bs.foldl (fun m b => insertA m b.block_id b) init) b.block_id = some b := by
  induction bs generalizing init with
  | nil => simp at hb
  | cons b' rest ih =>
    simp only [List.map_cons, List.nodup_cons] at hnd
    rcases List.mem_cons.mp hb with h1 | h1
    · subst h1
      simp only [List.foldl_cons]
      rw [lookupA_insert_fold_not_mem
          (fun b'' hb'' hh => hnd.1 (List.mem_map.mpr ⟨b'', hb'', hh⟩)),
        lookupA_insertA_self]
    · exact ih hnd.2 h1

theorem mem_keys_insert_fold {bs : List Block} {init : List (Nat × Block)}
    (j : Nat) :
    (j ∈ (bs.foldl (fun m b => insertA m b.block_id b) init).map Prod.fst) ↔
      (j ∈ init.map Prod.fst ∨ j ∈ bs.map Block.block_id) := by
  induction bs generalizing init with
  | nil => simp
  | cons b rest ih =>
    simp only [List.foldl_cons, List.map_cons, List.mem_cons]
    rw [ih]
    by_cases hm : b.block_id ∈ init.map Prod.fst
    · rw [keys_insertA_of_mem init _ _ hm]
      constructor
      · rintro (h | h)
        · exact Or.inl h
        · exact Or.inr (Or.inr h)
      · rintro (h | h | h)
        · exact Or.inl h
        · exact Or.inl (h ▸ hm)
        · exact Or.inr h
    · rw [keys_insertA_of_not_mem init _ _ hm]
      simp only [List.mem_append, List.mem_singleton]
      constructor
      · rintro ((h | h) | h)
        · exact Or.inl h
        · exact Or.inr (Or.inl h)
        · exact Or.inr (Or.inr h)
      · rintro (h | h | h)
        · exact Or.inl (Or.inl h)
        · exact Or.inl (Or.inr h)
        · exact Or.inr h

/-! ## Stash-insert fold lemmas (the path-read phase) -/

theorem mem_sir_fold {bs : List Block} {s : List (Nat × Block)} {p : Nat × Block}
    (h : p ∈ bs.foldl stashInsertReal s) :
    p ∈ s ∨ ∃ b ∈ bs, p = (b.block_id, b) ∧ b.block_id ≠ 0 := by
  induction bs generalizing s with
  | nil => exact Or.inl (by simpa using h)
  | cons b rest ih =>
    simp only [List.foldl_cons] at h
    rcases ih h with h1 | h1
    · by_cases hz : b.block_id ≠ 0
      · unfold stashInsertReal at h1
        rw [if_pos hz] at h1
        rcases mem_insertA h1 with h2 | h2
        · exact Or.inr ⟨b, List.mem_cons_self _ _, h2, hz⟩
        · exact Or.inl h2
      · unfold stashInsertReal at h1
        rw [if_neg hz] at h1
        exact Or.inl h1
    · rcases h1 with ⟨b', hb', hp⟩
      exact Or.inr ⟨b', List.mem_cons_of_mem _ hb', hp⟩

theorem nodupKeys_sir_fold {bs : List Block} {s : List (Nat × Block)}
    (hnd : (s.map Prod.fst).Nodup) :
    ((bs.foldl stashInsertReal s).map Prod.fst).Nodup := by
  induction bs generalizing s with
  | nil => simpa using hnd
  | cons b rest ih =>
    refine ih ?_
    unfold stashInsertReal
    split
    · exact nodupKeys_insertA _ _ hnd
    · exact hnd

theorem lookupA_sir_fold_not_mem {bs : List Block} {s : List (Nat × Block)}
    {j : Nat} (h : ∀ b ∈ bs, b.block_id ≠ j) :
    lookupA (bs.foldl stashInsertReal s) j = lookupA s j := by
  induction bs generalizing s with
  | nil => simp
  | cons b rest ih =>
    simp only [List.foldl_cons]
    rw [ih (fun b' hb' => h b' (List.mem_cons_of_mem _ hb'))]
    unfold stashInsertReal
    split
    · exact lookupA_insertA_ne s _ (fun hh => h b (List.mem_cons_self _ _) hh.symm)
    · rfl

theorem lookupA_sir_fold_pres {bs : List Block} {s : List (Nat × Block)}
    {j : Nat} {bstar : Block}
    (huniq : ∀ b ∈ bs, b.block_id = j → b = bstar)
    (h : lookupA s j = some bstar) :
    lookupA (bs.foldl stashInsertReal s) j = some bstar := by
  induction bs generalizing s with
  | nil => simpa using h
  | cons b rest ih =>
    simp only [List.foldl_cons]
    refine ih (fun b' hb' => huniq b' (List.mem_cons_of_mem _ hb')) ?_
    by_cases hbj : b.block_id = j
    · have hb : b = bstar := huniq b (List.mem_cons_self _ _) hbj
      subst hb
      unfold stashInsertReal
      split
      · rw [hbj, lookupA_insertA_self]
      · exact h
    · unfold stashInsertReal
      split
      · rw [lookupA_insertA_ne s _ (fun hh => hbj hh.symm)]
        exact h
      · exact h

theorem lookupA_sir_fold_found {bs : List Block} {s : List (Nat × Block)}
    {j : Nat} {bstar : Block} (hz : j ≠ 0)
    (hmem : bstar ∈ bs) (hid : bstar.block_id = j)
    (huniq : ∀ b ∈ bs, b.block_id = j → b = bstar) :
    lookupA (bs.foldl stashInsertReal s) j = some bstar := by
  induction bs generalizing s with
  | nil => simp at hmem
  | cons b rest ih =>
    simp only [List.foldl_cons]
    by_cases hbj : b.block_id = j
    · have hb : b = bstar := huniq b (List.mem_cons_self _ _) hbj
      subst hb
      refine lookupA_sir_fold_pres (fun b' hb' => huniq b' (List.mem_cons_of_mem _ hb')) ?_
      have hnz : b.block_id ≠ 0 := hid ▸ hz
      unfold stashInsertReal
      rw [if_pos hnz, hid, lookupA_insertA_self]
    · have hbm : bstar ∈ rest := by
        rcases List.mem_cons.mp hmem with h1 | h1
        · exact absurd (h1 ▸ hid) hbj
        · exact h1
      have hs : (stashInsertReal s b) = stashInsertReal s b := rfl
      refine ih hbm (fun b' hb' => huniq b' (List.mem_cons_of_mem _ hb'))

/-! ## Bucket-value bridges (between map entries and `get_all_blocks`) -/

theorem bucket_values_entry {bk : Bucket}
    (hkeyed : ∀ p ∈ bk.blocks, p.2.block_id = p.1) {b : Block}
    (hb : b ∈ bk.get_all_blocks) : (b.block_id, b) ∈ bk.blocks := by
  rcases List.mem_map.mp hb with ⟨⟨k, v⟩, hp, hpb⟩
  have hkey := hkeyed _ hp
  simp only at hkey hpb
  subst hpb
  rw [hkey]
  exact hp

theorem bucket_values_ne {bk : Bucket}
    (hkeyed : ∀ p ∈ bk.blocks, p.2.block_id = p.1) {j : Nat}
    (hc : countA bk.blocks j = 0) : ∀ b ∈ bk.get_all_blocks, b.block_id ≠ j := by
  intro b hb hbj
  exact (countA_eq_zero_iff _ j).mp hc
    (List.mem_map.mpr ⟨(b.block_id, b), bucket_values_entry hkeyed hb, hbj⟩)

theorem bucket_values_uniq {bk : Bucket}
    (hkeyed : ∀ p ∈ bk.blocks, p.2.block_id = p.1)
    (hnodup : (bk.blocks.map Prod.fst).Nodup) {j : Nat} {b : Block}
    (hl : lookupA bk.blocks j = some b) :
    b ∈ bk.get_all_blocks ∧ b.block_id = j ∧
      ∀ b' ∈ bk.get_all_blocks, b'.block_id = j → b' = b := by
  have hmem := lookupA_mem hl
  have hid : b.block_id = j := hkeyed _ hmem
  refine ⟨List.mem_map.mpr ⟨(j, b), hmem, rfl⟩, hid, ?_⟩
  intro b' hb' hbj'
  have hentry := bucket_values_entry hkeyed hb'
  rw [hbj'] at hentry
  have := lookupA_of_mem_nodup hnodup hentry
  rw [hl] at this
  exact (Option.some_inj.mp this).symm

/-! ## Path-read lemmas -/

theorem nodupKeys_readPath_fold {tree : List Bucket} {th old : Nat}
    {levels : List Nat} {s : List (Nat × Block)}
    (hnd : (s.map Prod.fst).Nodup) :
    ((levels.foldl (readLevel tree th old) s).map Prod.fst).Nodup := by
  induction levels generalizing s with
  | nil => simpa using hnd
  | cons l ls ih => exact ih (nodupKeys_sir_fold hnd)

theorem mem_readPath_fold {tree : List Bucket} {th old : Nat}
    {levels : List Nat} {s : List (Nat × Block)} {p : Nat × Block}
    (h : p ∈ levels.foldl (readLevel tree th old) s) :
    p ∈ s ∨ ∃ lvl ∈ levels, ∃ b,
      b ∈ (tree.getD (get_bucket_index th old lvl) Bucket.empty).get_all_blocks ∧
      p = (b.block_id, b) ∧ b.block_id ≠ 0 := by
  induction levels generalizing s with
  | nil => exact Or.inl (by simpa using h)
  | cons l ls ih =>
    simp only [List.foldl_cons] at h
    rcases ih h with h1 | h1
    · rcases mem_sir_fold h1 with h2 | h2
      · exact Or.inl h2
      · rcases h2 with ⟨b, hb, hp, hz⟩
        exact Or.inr ⟨l, List.mem_cons_self _ _, b, hb, hp, hz⟩
    · rcases h1 with ⟨lvl, hlvl, b, hb, hp, hz⟩
      exact Or.inr ⟨lvl, List.mem_cons_of_mem _ hlvl, b, hb, hp, hz⟩

theorem lookupA_readPath_pres {tree : List Bucket} {th old : Nat}
    {levels : List Nat} {s : List (Nat × Block)} {j : Nat}
    (h : ∀ lvl ∈ levels,
      ∀ b ∈ (tree.getD (get_bucket_index th old lvl) Bucket.empty).get_all_blocks,
        b.block_id ≠ j) :
    lookupA (levels.foldl (readLevel tree th old) s) j = lookupA s j := by
  induction levels generalizing s with
  | nil => simp
  | cons l ls ih =>
    simp only [List.foldl_cons]
    rw [ih (fun lvl hlvl => h lvl (List.mem_cons_of_mem _ hlvl))]
    exact lookupA_sir_fold_not_mem (h l (List.mem_cons_self _ _))

theorem lookupA_readPath_found {tree : List Bucket} {th old : Nat}
    {levels : List Nat} {s : List (Nat × Block)} {j : Nat} {bstar : Block}
    (hz : j ≠ 0) (hnd : levels.Nodup) {lvlstar : Nat} (hls : lvlstar ∈ levels)
    (hmem : bstar ∈ (tree.getD (get_bucket_index th old lvlstar) Bucket.empty).get_all_blocks)
    (hid : bstar.block_id = j)
    (huniq : ∀ b ∈ (tree.getD (get_bucket_index th old lvlstar) Bucket.empty).get_all_blocks,
      b.block_id = j → b = bstar)
    (hothers : ∀ lvl ∈ levels, lvl ≠ lvlstar →
      ∀ b ∈ (tree.getD (get_bucket_index th old lvl) Bucket.empty).get_all_blocks,
        b.block_id ≠ j) :
    lookupA (levels.foldl (readLevel tree th old) s) j = some bstar := by
  induction levels generalizing s with
  | nil => simp at hls
  | cons l ls ih =>
    simp only [List.nodup_cons] at hnd
    simp only [List.foldl_cons]
    by_cases hl : l = lvlstar
    · subst hl
      rw [lookupA_readPath_pres (fun lvl hlvl => hothers lvl (List.mem_cons_of_mem _ hlvl)
          (fun he => hnd.1 (he ▸ hlvl)))]
      exact lookupA_sir_fold_found hz hmem hid huniq
    · have hls' : lvlstar ∈ ls := by
        rcases List.mem_cons.mp hls with h1 | h1
        · exact absurd h1.symm hl
        · exact h1
      have hstep : lookupA (readLevel tree th old s l) j = lookupA s j := by
        exact lookupA_sir_fold_not_mem (hothers l (List.mem_cons_self _ _) hl)
      exact ih hnd.2 hls'
        (fun lvl hlvl hne => hothers lvl (List.mem_cons_of_mem _ hlvl) hne)

/-! ## Selection-loop lemmas -/

theorem selectLoop_spec (pm : List (Nat × Nat)) (cap th index level : Nat)
    (s : List (Nat × Block)) (acc : List Block) :
    ∃ sub : List (Nat × Block), sub.Sublist s ∧
      selectLoop pm cap th index level s acc = acc ++ sub.map Prod.snd ∧
      ∀ p ∈ sub, ∃ pos, lookupA pm p.2.block_id = some pos ∧
        get_bucket_index th pos level = index := by
  induction s generalizing acc with
  | nil => exact ⟨[], List.Sublist.refl _, by simp [selectLoop], by simp⟩
  | cons q rest ih =>
    rcases hq : lookupA pm q.2.block_id with _ | pos
    · rcases ih acc with ⟨sub, hsub, heq, hprop⟩
      refine ⟨sub, List.Sublist.cons _ hsub, ?_, hprop⟩
      cases q
      simpa [selectLoop, hq] using heq
    · by_cases he : get_bucket_index th pos level = index
      · by_cases hstop : cap ≤ (acc ++ [q.2]).length
        · refine ⟨[q], List.Sublist.cons₂ _ (List.nil_sublist _), ?_, ?_⟩
          · rcases q with ⟨k, v⟩
            simp only at hq hstop
            simp only [selectLoop, hq, he, if_true, if_pos hstop]
            simp
          · intro p hp
            rcases List.mem_singleton.mp hp with rfl
            exact ⟨pos, hq, he⟩
        · rcases ih (acc ++ [q.2]) with ⟨sub, hsub, heq, hprop⟩
          refine ⟨q :: sub, List.Sublist.cons₂ _ hsub, ?_, ?_⟩
          · cases q
            simp only [selectLoop, hq, he, if_true, if_neg hstop] at *
            simpa [List.append_assoc] using heq
          · intro p hp
            rcases List.mem_cons.mp hp with rfl | hp'
            · exact ⟨pos, hq, he⟩
            · exact hprop p hp'
      · rcases ih acc with ⟨sub, hsub, heq, hprop⟩
        refine ⟨sub, List.Sublist.cons _ hsub, ?_, hprop⟩
        cases q
        simpa [selectLoop, hq, he] using heq

theorem selectLoop_length (pm : List (Nat × Nat)) (cap th index level : Nat)
    (s : List (Nat × Block)) (acc : List Block) (h : acc.length < cap) :
    (selectLoop pm cap th index level s acc).length ≤ cap := by
  induction s generalizing acc with
  | nil => simpa [selectLoop] using Nat.le_of_lt h
  | cons q rest ih =>
    rcases hq : lookupA pm q.2.block_id with _ | pos
    · cases q
      simp only [selectLoop, hq]
      exact ih acc h
    · by_cases he : get_bucket_index th pos level = index
      · by_cases hstop : cap ≤ (acc ++ [q.2]).length
        · cases q
          simp only [selectLoop, hq, he, if_true, if_pos hstop]
          simp only [List.length_append, List.length_singleton] at hstop ⊢
          omega
        · cases q
          simp only [selectLoop, hq, he, if_true, if_neg hstop]
          refine ih _ ?_
          simp only [List.length_append, List.length_singleton] at hstop ⊢
          omega
      · cases q
        simp only [selectLoop, hq, he, if_false]
        exact ih acc h

/-! ## List indexing lemmas -/

theorem getD_set_self (tree : List Bucket) (n : Nat) (bk : Bucket) (e : Bucket)
    (h : n < tree.length) : (tree.set n bk).getD n e = bk := by
  induction tree generalizing n with
  | nil => simp at h
  | cons x xs ih =>
    cases n with
    | zero => simp [List.getD]
    | succ m =>
      simp only [List.set, List.getD, List.get?]
      exact ih m (by simpa using h)

theorem getD_set_ne (tree : List Bucket) (n m : Nat) (bk : Bucket) (e : Bucket)
    (h : n ≠ m) : (tree.set n bk).getD m e = tree.getD m e := by
  induction tree generalizing n m with
  | nil => simp
  | cons x xs ih =>
    cases n with
    | zero =>
      cases m with
      | zero => exact absurd rfl h
      | succ m' => simp [List.set, List.getD]
    | succ n' =>
      cases m with
      | zero => simp [List.set, List.getD]
      | succ m' =>
        simp only [List.set, List.getD, List.get?]
        exact ih n' m' (fun hh => h (hh ▸ rfl))

theorem getD_mem {tree : List Bucket} {t : Nat} (e : Bucket)
    (h : t < tree.length) : tree.getD t e ∈ tree := by
  induction tree generalizing t with
  | nil => simp at h
  | cons x xs ih =>
    cases t with
    | zero => simp [List.getD]
    | succ t' =>
      simp only [List.getD, List.get?]
      exact List.mem_cons_of_mem _ (ih (by simpa using h))

/-! ## Tree-count lemmas -/

theorem tci_nil (tree : List Bucket) (j : Nat) : treeCountIdx tree [] j = 0 := rfl

theorem tci_cons (tree : List Bucket) (t : Nat) (ts : List Nat) (j : Nat) :
    treeCountIdx tree (t :: ts) j =
      countA (tree.getD t Bucket.empty).blocks j + treeCountIdx tree ts j := by
  simp [treeCountIdx]

theorem tci_zero {tree : List Bucket} {ts : List Nat} {j : Nat}
    (h : ∀ t ∈ ts, countA (tree.getD t Bucket.empty).blocks j = 0) :
    treeCountIdx tree ts j = 0 := by
  induction ts with
  | nil => rfl
  | cons t ts ih =>
    rw [tci_cons, h t (List.mem_cons_self _ _),
      ih (fun t' ht' => h t' (List.mem_cons_of_mem _ ht'))]

theorem tci_all_zero {tree : List Bucket} {ts : List Nat} {j : Nat}
    (h : treeCountIdx tree ts j = 0) :
    ∀ t ∈ ts, countA (tree.getD t Bucket.empty).blocks j = 0 := by
  induction ts with
  | nil => simp
  | cons t ts ih =>
    rw [tci_cons] at h
    intro t' ht'
    rcases List.mem_cons.mp ht' with rfl | ht'
    · omega
    · exact ih (by omega) t' ht'

theorem countA_le_tci {tree : List Bucket} {ts : List Nat} {t : Nat} (j : Nat)
    (h : t ∈ ts) : countA (tree.getD t Bucket.empty).blocks j ≤ treeCountIdx tree ts j := by
  induction ts with
  | nil => simp at h
  | cons t' ts ih =>
    rw [tci_cons]
    rcases List.mem_cons.mp h with rfl | h'
    · omega
    · have := ih h'
      omega

theorem tci_split (tree : List Bucket) (ts : List Nat) (j : Nat) (q : Nat → Bool) :
    treeCountIdx tree ts j =
      treeCountIdx tree (ts.filter q) j +
      treeCountIdx tree (ts.filter (fun t => ! q t)) j := by
  induction ts with
  | nil => rfl
  | cons t ts ih =>
    rcases hq : q t with _ | _
    · rw [List.filter_cons_of_neg (by simp [hq]),
        List.filter_cons_of_pos (by simp [hq]),
        tci_cons, tci_cons, ih]
      omega
    · rw [List.filter_cons_of_pos (by simp [hq]),
        List.filter_cons_of_neg (by simp [hq]),
        tci_cons, tci_cons, ih]
      omega

theorem tci_extract {tree : List Bucket} {ts : List Nat} {tstar : Nat} (j : Nat)
    (hnd : ts.Nodup) (ht : tstar ∈ ts) :
    treeCountIdx tree ts j =
      countA (tree.getD tstar Bucket.empty).blocks j +
      treeCountIdx tree (ts.filter (fun t => decide (t ≠ tstar))) j := by
  induction ts with
  | nil => simp at ht
  | cons t ts ih =>
    simp only [List.nodup_cons] at hnd
    by_cases he : tstar = t
    · subst he
      have hfilter : ts.filter (fun t' => decide (t' ≠ tstar)) = ts := by
        refine List.filter_eq_self.mpr ?_
        intro a ha
        simpa using fun hh : a = tstar => hnd.1 (hh ▸ ha)
      rw [tci_cons, List.filter_cons_of_neg (by simp), hfilter]
    · have ht' : tstar ∈ ts := by
        rcases List.mem_cons.mp ht with h1 | h1
        · exact absurd h1 he
        · exact h1
      rw [tci_cons,
        List.filter_cons_of_pos (by simpa using fun hh => he hh.symm),
        tci_cons, ih hnd.2 ht']
      omega

theorem tci_set_not_mem {tree : List Bucket} {ts : List Nat} {n : Nat}
    (bk : Bucket) (j : Nat) (h : ∀ t ∈ ts, t ≠ n) :
    treeCountIdx (tree.set n bk) ts j = treeCountIdx tree ts j := by
  induction ts with
  | nil => rfl
  | cons t ts ih =>
    rw [tci_cons, tci_cons, getD_set_ne tree n t bk Bucket.empty
        (fun he => h t (List.mem_cons_self _ _) he.symm),
      ih (fun t' ht' => h t' (List.mem_cons_of_mem _ ht'))]

theorem tci_perm {tree : List Bucket} {ts ts' : List Nat} (j : Nat)
    (h : ts.Perm ts') : treeCountIdx tree ts j = treeCountIdx tree ts' j := by
  unfold treeCountIdx
  exact List.Perm.sum_eq (List.Perm.map _ h)

/-! ## Tree-find lemmas -/

theorem treeFindIdx_none {tree : List Bucket} {ts : List Nat} {j : Nat}
    (h : ∀ t ∈ ts, countA (tree.getD t Bucket.empty).blocks j = 0) :
    treeFindIdx tree j ts = none := by
  induction ts with
  | nil => rfl
  | cons t ts ih =>
    have hl : lookupA (tree.getD t Bucket.empty).blocks j = none :=
      lookupA_none_of_countA_zero (h t (List.mem_cons_self _ _))
    simp only [treeFindIdx, hl]
    exact ih (fun t' ht' => h t' (List.mem_cons_of_mem _ ht'))

theorem treeFindIdx_found {tree : List Bucket} {ts : List Nat} {j tstar : Nat}
    {b : Block} (hts : tstar ∈ ts)
    (hl : lookupA (tree.getD tstar Bucket.empty).blocks j = some b)
    (hothers : ∀ t ∈ ts, t ≠ tstar →
      countA (tree.getD t Bucket.empty).blocks j = 0) :
    treeFindIdx tree j ts = some b := by
  induction ts with
  | nil => simp at hts
  | cons t ts ih =>
    by_cases he : t = tstar
    · subst he
      simp only [treeFindIdx, hl]
    · have hz : lookupA (tree.getD t Bucket.empty).blocks j = none :=
        lookupA_none_of_countA_zero (hothers t (List.mem_cons_self _ _) he)
      simp only [treeFindIdx, hz]
      have hts' : tstar ∈ ts := by
        rcases List.mem_cons.mp hts with h1 | h1
        · exact absurd h1.symm he
        · exact h1
      exact ih hts' (fun t' ht' => hothers t' (List.mem_cons_of_mem _ ht'))

theorem treeFindIdx_mem {tree : List Bucket} {ts : List Nat} {j : Nat} {b : Block}
    (h : treeFindIdx tree j ts = some b) :
    ∃ t ∈ ts, lookupA (tree.getD t Bucket.empty).blocks j = some b := by
  induction ts with
  | nil => simp [treeFindIdx] at h
  | cons t ts ih =>
    rcases hl : lookupA (tree.getD t Bucket.empty).blocks j with _ | b'
    · simp only [treeFindIdx, hl] at h
      rcases ih h with ⟨t', ht', hl'⟩
      exact ⟨t', List.mem_cons_of_mem _ ht', hl'⟩
    · simp only [treeFindIdx, hl, Option.some_inj] at h
      exact ⟨t, List.mem_cons_self _ _, h ▸ hl⟩

/-! ## Bucket-index arithmetic -/

theorem get_bucket_index_eq (th leaf lvl : Nat) :
    get_bucket_index th leaf lvl = 2 ^ lvl - 1 + leaf / 2 ^ (th - lvl) := by
  unfold get_bucket_index
  rw [Nat.shiftLeft_eq, Nat.shiftRight_eq_div_pow, one_mul]

theorem get_bucket_index_div_lt {th leaf lvl : Nat} (hleaf : leaf < 2 ^ th)
    (hlvl : lvl ≤ th) : leaf / 2 ^ (th - lvl) < 2 ^ lvl := by
  rw [Nat.div_lt_iff_lt_mul (Nat.pos_pow_of_pos _ (by norm_num))]
  calc leaf < 2 ^ th := hleaf
    _ = 2 ^ lvl * 2 ^ (th - lvl) := by
      rw [← pow_add]
      congr 1
      omega

theorem get_bucket_index_bounds {th leaf lvl : Nat} (hleaf : leaf < 2 ^ th)
    (hlvl : lvl ≤ th) :
    2 ^ lvl - 1 ≤ get_bucket_index th leaf lvl ∧
      get_bucket_index th leaf lvl < 2 ^ (lvl + 1) - 1 := by
  rw [get_bucket_index_eq]
  have hdiv := get_bucket_index_div_lt hleaf hlvl
  have hpow : 1 ≤ 2 ^ lvl := Nat.one_le_two_pow
  constructor
  · exact Nat.le_add_right _ _
  · have : 2 ^ (lvl + 1) = 2 * 2 ^ lvl := by ring
    omega

theorem get_bucket_index_lt {th leaf lvl : Nat} (hleaf : leaf < 2 ^ th)
    (hlvl : lvl ≤ th) :
    get_bucket_index th leaf lvl < 2 ^ (th + 1) - 1 := by
  have h := (get_bucket_index_bounds hleaf hlvl).2
  have hmono : 2 ^ (lvl + 1) ≤ 2 ^ (th + 1) :=
    Nat.pow_le_pow_right (by norm_num) (by omega)
  omega

theorem get_bucket_index_inj {th leaf l1 l2 : Nat} (hleaf : leaf < 2 ^ th)
    (h1 : l1 ≤ th) (h2 : l2 ≤ th)
    (heq : get_bucket_index th leaf l1 = get_bucket_index th leaf l2) :
    l1 = l2 := by
  have haux : ∀ a b : Nat, a ≤ th → b ≤ th → a < b →
      get_bucket_index th leaf a < get_bucket_index th leaf b := by
    intro a b ha hb hab
    have hba := (get_bucket_index_bounds hleaf ha).2
    have hbb := (get_bucket_index_bounds hleaf hb).1
    have hmono : 2 ^ (a + 1) ≤ 2 ^ b := Nat.pow_le_pow_right (by norm_num) (by omega)
    omega
  rcases Nat.lt_trichotomy l1 l2 with h | h | h
  · exact absurd heq (Nat.ne_of_lt (haux _ _ h1 h2 h))
  · exact h
  · exact absurd heq.symm (Nat.ne_of_lt (haux _ _ h2 h1 h))

/-! ## `nonRem` lemmas -/

theorem mem_nonRem (len : Nat) (rem : List Nat) (t : Nat) :
    t ∈ nonRem len rem ↔ t < len ∧ t ∉ rem := by
  simp [nonRem, List.mem_filter, List.mem_range]

theorem nonRem_nodup (len : Nat) (rem : List Nat) : (nonRem len rem).Nodup :=
  (List.nodup_range len).filter _

theorem nonRem_nil (len : Nat) : nonRem len [] = List.range len := by
  unfold nonRem
  apply List.filter_eq_self.mpr
  intro a _
  simp

theorem nonRem_cons_filter (len : Nat) (rem : List Nat) (i : Nat) :
    (nonRem len rem).filter (fun t => decide (t ≠ i)) = nonRem len (i :: rem) := by
  unfold nonRem
  rw [List.filter_filter]
  apply List.filter_congr
  intro t _
  by_cases h1 : t = i <;> by_cases h2 : t ∈ rem <;> simp [h1, h2]

theorem tci_nonRem_extract {tree : List Bucket} {len : Nat} {rem : List Nat}
    {i : Nat} (j : Nat) (hi : i < len) (hrem : i ∉ rem) :
    treeCountIdx tree (nonRem len rem) j =
      countA (tree.getD i Bucket.empty).blocks j +
      treeCountIdx tree (nonRem len (i :: rem)) j := by
  rw [tci_extract j (nonRem_nodup len rem) ((mem_nonRem len rem i).mpr ⟨hi, hrem⟩),
    nonRem_cons_filter]

theorem map_snd_block_id {sub : List (Nat × Block)}
    (h : ∀ p ∈ sub, p.2.block_id = p.1) :
    (sub.map Prod.snd).map Block.block_id = sub.map Prod.fst := by
  induction sub with
  | nil => rfl
  | cons p rest ih =>
    simp only [List.map_cons, h p (List.mem_cons_self _ _)]
    rw [ih (fun q hq => h q (List.mem_cons_of_mem _ hq))]

theorem remIdxs_cons (th old lvl : Nat) (levels : List Nat) :
    remIdxs th old (lvl :: levels) =
      get_bucket_index th old lvl :: remIdxs th old levels := rfl

theorem remIdxs_nil (th old : Nat) : remIdxs th old [] = [] := rfl

/-! ## Rebuilt-bucket lemmas -/

theorem replace_blocks_full {bk : Bucket} {bs : List Block}
    (h : bs.length ≤ bk.capacity) :
    (bk.replace_blocks bs).blocks =
      bs.foldl (fun m b => insertA m b.block_id b) [] := by
  unfold Bucket.replace_blocks
  rw [List.take_of_length_le h]

theorem newbucket_keyed (bs : List Block) :
    ∀ p ∈ bs.foldl (fun m b => insertA m b.block_id b) [], p.2.block_id = p.1 := by
  intro p hp
  rcases mem_insert_fold hp with h | ⟨b, _, rfl⟩
  · simp at h
  · rfl

theorem newbucket_nodup (bs : List Block) :
    ((bs.foldl (fun m b => insertA m b.block_id b) []).map Prod.fst).Nodup :=
  nodupKeys_insert_fold (by simp)

theorem countA_newbucket (bs : List Block) (j : Nat) :
    countA (bs.foldl (fun m b => insertA m b.block_id b) []) j =
      if j ∈ bs.map Block.block_id then 1 else 0 := by
  rw [countA_of_nodup j (newbucket_nodup bs)]
  by_cases hm : j ∈ bs.map Block.block_id
  · rw [if_pos ((mem_keys_insert_fold j).mpr (Or.inr hm)), if_pos hm]
  · rw [if_neg ?_, if_neg hm]
    intro h
    rcases (mem_keys_insert_fold j).mp h with h | h
    · simp at h
    · exact hm h

theorem mem_padded_ids {selected : List Block} {k j : Nat} (hj : j ≠ 0) :
    (j ∈ (selected ++ List.replicate k dummyBlock).map Block.block_id) ↔
      j ∈ selected.map Block.block_id := by
  rw [List.map_append, List.mem_append, List.map_replicate]
  simp only [List.mem_replicate]
  constructor
  · rintro (h | ⟨_, h⟩)
    · exact h
    · exact absurd h hj
  · exact Or.inl

theorem padded_length {selected : List Block} {cap : Nat}
    (h : selected.length ≤ cap) :
    (selected ++ List.replicate (cap - selected.length) dummyBlock).length = cap := by
  rw [List.length_append, List.length_replicate]
  omega

/-! ## The write-back step -/

theorem wb_step
    {pm : List (Nat × Nat)} {target : Nat → Option Block} {placed : Nat → Bool}
    {cap th old : Nat} (hcap : 1 ≤ cap) (hold : old < 2 ^ th)
    (hpmz : ∀ p ∈ pm, p.1 ≠ 0)
    {lvl : Nat} (hlvl : lvl ≤ th) {levels : List Nat}
    (hlvls : ∀ l ∈ levels, l ≤ th) (hnotin : lvl ∉ levels)
    {tree : List Bucket} {stash : List (Nat × Block)}
    (hinv : WBInv pm target placed cap th old (lvl :: levels) tree stash) :
    WBInv pm target placed cap th old levels
      (evictLevel cap th old pm (tree, stash) lvl).1
      (evictLevel cap th old pm (tree, stash) lvl).2 := by
  obtain ⟨sub, hsub, heq0, hprop⟩ :=
    selectLoop_spec pm cap th (get_bucket_index th old lvl) lvl stash []
  have heq : selectLoop pm cap th (get_bucket_index th old lvl) lvl stash [] =
      sub.map Prod.snd := by simpa using heq0
  have hsubmem : ∀ p ∈ sub, p ∈ stash := fun p hp => hsub.subset hp
  have hsubkeyed : ∀ p ∈ sub, p.2.block_id = p.1 :=
    fun p hp => hinv.stash_keyed p (hsubmem p hp)
  have hsubnz : ∀ p ∈ sub, p.1 ≠ 0 := fun p hp => hinv.stash_nz p (hsubmem p hp)
  have hsubkeys_nodup : (sub.map Prod.fst).Nodup :=
    (hsub.map Prod.fst).nodup hinv.stash_nodup
  have hids : (sub.map Prod.snd).map Block.block_id = sub.map Prod.fst :=
    map_snd_block_id hsubkeyed
  have hsel_len : (sub.map Prod.snd).length ≤ cap := by
    rw [← heq]
    exact selectLoop_length pm cap th _ lvl stash [] (by simpa using hcap)
  have hlen : tree.length = 2 ^ (th + 1) - 1 := hinv.tree_len
  have hidx_lt : get_bucket_index th old lvl < tree.length := by
    rw [hlen]; exact get_bucket_index_lt hold hlvl
  have hbk_mem : tree.getD (get_bucket_index th old lvl) Bucket.empty ∈ tree :=
    getD_mem _ hidx_lt
  have hbk_cap : (tree.getD (get_bucket_index th old lvl) Bucket.empty).capacity = cap :=
    hinv.bk_cap _ hbk_mem
  have hindex_notin : get_bucket_index th old lvl ∉ remIdxs th old levels := by
    intro hmem
    rcases List.mem_map.mp hmem with ⟨l, hl, hle⟩
    have : l = lvl := get_bucket_index_inj hold (hlvls l hl) hlvl hle
    exact hnotin (this ▸ hl)
  have hev : evictLevel cap th old pm (tree, stash) lvl =
      (tree.set (get_bucket_index th old lvl)
        ((tree.getD (get_bucket_index th old lvl) Bucket.empty).replace_blocks
          (sub.map Prod.snd ++
            List.replicate (cap - (sub.map Prod.snd).length) dummyBlock)),
       (sub.map Prod.snd).foldl (fun s b => eraseA s b.block_id) stash) :=
    congrArg (fun sel : List Block =>
      (tree.set (get_bucket_index th old lvl)
        ((tree.getD (get_bucket_index th old lvl) Bucket.empty).replace_blocks
          (sel ++ List.replicate (cap - sel.length) dummyBlock)),
       sel.foldl (fun (s : List (Nat × Block)) (b : Block) => eraseA s b.block_id)
         stash)) heq
  rw [hev]
  have hnewblocks : ((tree.getD (get_bucket_index th old lvl) Bucket.empty).replace_blocks
      (sub.map Prod.snd ++
        List.replicate (cap - (sub.map Prod.snd).length) dummyBlock)).blocks =
      (sub.map Prod.snd ++
        List.replicate (cap - (sub.map Prod.snd).length) dummyBlock).foldl
        (fun m b => insertA m b.block_id b) [] :=
    replace_blocks_full (by rw [hbk_cap, padded_length hsel_len])
  have hcount_newbk : ∀ j : Nat, j ≠ 0 →
      countA ((tree.getD (get_bucket_index th old lvl) Bucket.empty).replace_blocks
        (sub.map Prod.snd ++
          List.replicate (cap - (sub.map Prod.snd).length) dummyBlock)).blocks j =
      (if j ∈ sub.map Prod.fst then 1 else 0) := by
    intro j hj
    rw [hnewblocks, countA_newbucket]
    by_cases hm : j ∈ sub.map Prod.fst
    · rw [if_pos ((mem_padded_ids hj).mpr (hids ▸ hm)), if_pos hm]
    · rw [if_neg (fun hmm => hm (hids ▸ (mem_padded_ids hj).mp hmm)), if_neg hm]
  have hmem_newbk : ∀ p ∈ ((tree.getD (get_bucket_index th old lvl) Bucket.empty).replace_blocks
      (sub.map Prod.snd ++
        List.replicate (cap - (sub.map Prod.snd).length) dummyBlock)).blocks,
      p.1 ≠ 0 → ∃ q ∈ sub, p = (q.1, q.2) := by
    intro p hp hpz
    rw [hnewblocks] at hp
    rcases mem_insert_fold hp with h | ⟨b, hb, rfl⟩
    · simp at h
    · rcases List.mem_append.mp hb with hb | hb
      · rcases List.mem_map.mp hb with ⟨q, hq, rfl⟩
        exact ⟨q, hq, by rw [hsubkeyed q hq]⟩
      · rw [List.eq_of_mem_replicate hb] at hpz ⊢
        exact absurd rfl hpz
  have hstash'_lookup : ∀ j : Nat,
      lookupA ((sub.map Prod.snd).foldl (fun s b => eraseA s b.block_id) stash) j =
        if j ∈ sub.map Prod.fst then none else lookupA stash j := by
    intro j
    rw [lookupA_erase_fold j hinv.stash_nodup, hids]
  have hstash'_count : ∀ j : Nat,
      countA ((sub.map Prod.snd).foldl (fun s b => eraseA s b.block_id) stash) j =
        if j ∈ sub.map Prod.fst then 0 else countA stash j := by
    intro j
    rw [countA_erase_fold j hinv.stash_nodup, hids]
  refine ⟨?_, ?_, ?_, ?_, ?_, ?_, ?_, ?_, ?_, ?_, ?_, ?_⟩
  · exact nodupKeys_erase_fold hinv.stash_nodup
  · exact fun p hp => hinv.stash_keyed p (mem_erase_fold hp)
  · exact fun p hp => hinv.stash_nz p (mem_erase_fold hp)
  · exact fun p hp => hinv.stash_reg p (mem_erase_fold hp)
  · intro bk hbk
    rcases List.mem_or_eq_of_mem_set hbk with hbk | rfl
    · exact hinv.bk_nodup bk hbk
    · rw [hnewblocks]
      exact newbucket_nodup _
  · intro bk hbk
    rcases List.mem_or_eq_of_mem_set hbk with hbk | rfl
    · exact hinv.bk_keyed bk hbk
    · rw [hnewblocks]
      exact newbucket_keyed _
  · intro bk hbk
    rcases List.mem_or_eq_of_mem_set hbk with hbk | rfl
    · exact hinv.bk_cap bk hbk
    · exact hbk_cap
  · rw [List.length_set]
    exact hlen
  · -- counts
    intro p hp
    have hj := hpmz p hp
    have hold_counts := hinv.counts p hp
    unfold liveCount at hold_counts ⊢
    rw [remIdxs_cons] at hold_counts
    rw [List.length_set]
    rw [hstash'_count]
    rw [tci_nonRem_extract p.1 hidx_lt hindex_notin,
      getD_set_self tree _ _ _ hidx_lt,
      tci_set_not_mem _ p.1 (fun t ht hte => by
        rcases (mem_nonRem _ _ _).mp ht with ⟨_, hnot⟩
        exact hnot (hte ▸ List.mem_cons_self _ _)),
      hcount_newbk p.1 hj]
    by_cases hm : p.1 ∈ sub.map Prod.fst
    · rcases List.mem_map.mp hm with ⟨q, hq, hq1⟩
      have hqmem : (p.1, q.2) ∈ stash := by
        have := hsubmem q hq
        rwa [show q = (p.1, q.2) from by rw [← hq1]] at this
      have hpos : 1 ≤ countA stash p.1 := countA_pos_of_mem hqmem
      have hle1 : countA stash p.1 ≤ 1 := countA_le_one_of_nodup _ hinv.stash_nodup
      rcases hpl : placed p.1 with _ | _
      · rw [hpl] at hold_counts
        simp at hold_counts
        omega
      · rw [hpl] at hold_counts
        simp at hold_counts
        simp [hm, hpl]
        omega
    · rw [if_neg hm, if_neg hm]
      omega
  · -- onpath
    intro t ht p hpt hpz
    rw [List.length_set] at ht
    by_cases hti : t = get_bucket_index th old lvl
    · subst hti
      rw [getD_set_self tree _ _ _ hidx_lt] at hpt
      rcases hmem_newbk p hpt hpz with ⟨q, hq, rfl⟩
      rcases hprop q hq with ⟨pos, hlook, hidx⟩
      rw [hsubkeyed q hq] at hlook
      refine ⟨by rw [hlook]; rfl, lvl, List.mem_range.mpr (by omega), ?_⟩
      rw [hlook]
      exact hidx.symm
    · rw [getD_set_ne tree _ _ _ _ (fun hh => hti hh.symm)] at hpt
      have ht' : t ∈ nonRem tree.length (remIdxs th old (lvl :: levels)) := by
        rw [remIdxs_cons]
        rcases (mem_nonRem _ _ _).mp ht with ⟨htl, htn⟩
        refine (mem_nonRem _ _ _).mpr ⟨htl, ?_⟩
        intro hmem
        rcases List.mem_cons.mp hmem with h1 | h1
        · exact hti h1
        · exact htn h1
      exact hinv.onpath t ht' p hpt hpz
  · exact fun p hp => hinv.stash_target p (mem_erase_fold hp)
  · -- tree_target
    intro t ht p hpt hpz
    rw [List.length_set] at ht
    by_cases hti : t = get_bucket_index th old lvl
    · subst hti
      rw [getD_set_self tree _ _ _ hidx_lt] at hpt
      rcases hmem_newbk p hpt hpz with ⟨q, hq, rfl⟩
      exact hinv.stash_target q (hsubmem q hq)
    · rw [getD_set_ne tree _ _ _ _ (fun hh => hti hh.symm)] at hpt
      have ht' : t ∈ nonRem tree.length (remIdxs th old (lvl :: levels)) := by
        rw [remIdxs_cons]
        rcases (mem_nonRem _ _ _).mp ht with ⟨htl, htn⟩
        refine (mem_nonRem _ _ _).mpr ⟨htl, ?_⟩
        intro hmem
        rcases List.mem_cons.mp hmem with h1 | h1
        · exact hti h1
        · exact htn h1
      exact hinv.tree_target t ht' p hpt hpz

/-! ## More counting and finding helpers -/

theorem countA_insertA_ne {α : Type} {l : List (Nat × α)} {j k : Nat} (v : α)
    (h : j ≠ k) : countA (insertA l k v) j = countA l j := by
  have hkj : ¬ k = j := fun hh => h hh.symm
  induction l with
  | nil => simp [insertA, countA, hkj]
  | cons q rest ih =>
    by_cases hk : q.1 = k
    · have hqj : ¬ q.1 = j := by rw [hk]; exact hkj
      simp [insertA, hk, countA, hkj, hqj]
    · simp [insertA, hk, countA, ih]

theorem treeFindIdx_none_all {tree : List Bucket} {ts : List Nat} {j : Nat}
    (h : treeFindIdx tree j ts = none) :
    ∀ t ∈ ts, lookupA (tree.getD t Bucket.empty).blocks j = none := by
  induction ts with
  | nil => simp
  | cons t ts ih =>
    intro t' ht'
    rcases hl : lookupA (tree.getD t Bucket.empty).blocks j with _ | b
    · simp only [treeFindIdx, hl] at h
      rcases List.mem_cons.mp ht' with rfl | ht'
      · exact hl
      · exact ih h t' ht'
    · simp only [treeFindIdx, hl] at h
      exact Option.noConfusion h

theorem tci_nonRem_le (tree : List Bucket) (len : Nat) (rem : List Nat) (j : Nat) :
    treeCountIdx tree (nonRem len rem) j ≤ treeCountIdx tree (List.range len) j := by
  have := tci_split tree (List.range len) j (fun t => decide (t ∉ rem))
  unfold nonRem
  omega

/-- If the id occurs exactly once in the whole structure, in the stash, then
`logicalBlock` is that entry. -/
theorem logical_of_stash {st : PathORAM} {j : Nat} {b : Block}
    (hsl : lookupA st.stash j = some b) : logicalBlock st j = some b := by
  unfold logicalBlock
  rw [hsl]

/-- If the id does not occur at all, `logicalBlock` is `none`. -/
theorem logical_none_of_total {st : PathORAM} {j : Nat}
    (htotal : totalCount st j = 0) : logicalBlock st j = none := by
  unfold totalCount at htotal
  have hs : lookupA st.stash j = none := lookupA_none_of_countA_zero (by omega)
  unfold logicalBlock
  rw [hs, treeFindIdx_none (tci_all_zero (by omega))]

/-- If the id occurs exactly once, in bucket `t`, then `logicalBlock` is that
bucket entry. -/
theorem logical_of_tree {st : PathORAM} {j : Nat} {b : Block} {t : Nat}
    (hsl : lookupA st.stash j = none) (ht : t < st.tree.length)
    (hlk : lookupA (st.tree.getD t Bucket.empty).blocks j = some b)
    (htotal : totalCount st j ≤ 1) :
    logicalBlock st j = some b := by
  unfold totalCount at htotal
  have hmemt : t ∈ List.range st.tree.length := List.mem_range.mpr ht
  have hc1 : 1 ≤ countA (st.tree.getD t Bucket.empty).blocks j :=
    countA_pos_of_mem (lookupA_mem hlk)
  have hle := @countA_le_tci st.tree (List.range st.tree.length) _ j hmemt
  have hext := @tci_extract st.tree _ _ j (List.nodup_range _) hmemt
  have hothers : ∀ t' ∈ List.range st.tree.length, t' ≠ t →
      countA (st.tree.getD t' Bucket.empty).blocks j = 0 := by
    intro t' ht' hne
    have hmem' : t' ∈ (List.range st.tree.length).filter (fun x => decide (x ≠ t)) :=
      List.mem_filter.mpr ⟨ht', by simpa using hne⟩
    have := @countA_le_tci st.tree
      ((List.range st.tree.length).filter (fun x => decide (x ≠ t))) _ j hmem'
    omega
  unfold logicalBlock
  rw [hsl, treeFindIdx_found hmemt hlk hothers]

/-- Every real block stored anywhere in a well-formed tree is the unique
holder of its id, so its data is the logical value. -/
theorem tree_entry_logical {placed : Nat → Bool} {st : PathORAM}
    (hH : Hygiene st) (hPath : OnOwnPath st) (hPlace : Placement placed st)
    {t : Nat} (ht : t < st.tree.length)
    {p : Nat × Block} (hp : p ∈ (st.tree.getD t Bucket.empty).blocks)
    (hpz : p.1 ≠ 0) : logicalBlock st p.1 = some p.2 := by
  obtain ⟨hs_nd, hs_k, hs_nz, hs_reg, hpm_nd, hb_nd, hb_k, hb_cap, hlen, hcap⟩ := hH
  have hbk_mem : st.tree.getD t Bucket.empty ∈ st.tree := getD_mem _ ht
  have hkey : p.2.block_id = p.1 := hb_k _ hbk_mem p hp
  have hpm := hPath t (List.mem_range.mpr ht) p hp hpz
  obtain ⟨pj, hpj⟩ := Option.isSome_iff_exists.mp hpm.1
  have hlk : lookupA (st.tree.getD t Bucket.empty).blocks p.1 = some p.2 := by
    have hcnt1 : 1 ≤ countA (st.tree.getD t Bucket.empty).blocks p.1 := by
      refine countA_pos_of_mem (v := p.2) ?_
      rcases p with ⟨k, b⟩
      exact hp
    have htot := hPlace (p.1, pj) (lookupA_mem hpj)
    have hle := @countA_le_tci st.tree (List.range st.tree.length) _
      p.1 (List.mem_range.mpr ht)
    unfold totalCount at htot
    have hcnt : countA (st.tree.getD t Bucket.empty).blocks p.1 = 1 := by
      rcases hpl : placed p.1 with _ | _ <;> rw [hpl] at htot <;> simp at htot <;> omega
    refine lookupA_of_countA_one_mem hcnt ?_
    rcases p with ⟨k, b⟩
    exact hp
  have hstash_none : lookupA st.stash p.1 = none := by
    have htot := hPlace (p.1, pj) (lookupA_mem hpj)
    have hcnt1 : 1 ≤ countA (st.tree.getD t Bucket.empty).blocks p.1 :=
      countA_pos_of_mem (lookupA_mem hlk)
    have hle := @countA_le_tci st.tree (List.range st.tree.length) _
      p.1 (List.mem_range.mpr ht)
    unfold totalCount at htot
    refine lookupA_none_of_countA_zero ?_
    rcases hpl : placed p.1 with _ | _ <;> rw [hpl] at htot <;> simp at htot <;> omega
  have htot := hPlace (p.1, pj) (lookupA_mem hpj)
  refine logical_of_tree hstash_none ht hlk ?_
  rw [htot]
  split <;> omega

/-- Every entry of the stash after the path-read phase holds the logical
value of its id. -/
theorem stash1_entry_logical {placed : Nat → Bool} {st : PathORAM}
    (hH : Hygiene st) (hPath : OnOwnPath st) (hPlace : Placement placed st)
    {old : Nat} (hold : old < 2 ^ st.tree_height)
    {p : Nat × Block}
    (hp : p ∈ readPathStash st.tree st.tree_height old st.stash) :
    logicalBlock st p.1 = some p.2 := by
  rcases mem_readPath_fold hp with h1 | ⟨lvl, hlvl, b, hb, hpb, hbz⟩
  · have : lookupA st.stash p.1 = some p.2 :=
      lookupA_of_mem_nodup hH.1 (by rcases p with ⟨k, b⟩; exact h1)
    exact logical_of_stash this
  · have hlvl' : lvl ≤ st.tree_height := by
      have := List.mem_range.mp hlvl
      omega
    have ht : get_bucket_index st.tree_height old lvl < st.tree.length := by
      rw [hH.2.2.2.2.2.2.2.2.1]
      exact get_bucket_index_lt hold hlvl'
    have hbk_mem : st.tree.getD (get_bucket_index st.tree_height old lvl) Bucket.empty ∈ st.tree :=
      getD_mem _ ht
    have hkeyed := hH.2.2.2.2.2.2.1 _ hbk_mem
    have hentry : (b.block_id, b) ∈
        (st.tree.getD (get_bucket_index st.tree_height old lvl) Bucket.empty).blocks :=
      bucket_values_entry hkeyed hb
    subst hpb
    exact tree_entry_logical hH hPath hPlace ht hentry hbz

/-! ## Read-phase characterization -/

theorem mem_accessRem {th old t : Nat} :
    t ∈ remIdxs th old ((List.range (th + 1)).reverse) ↔
      ∃ lvl, lvl ≤ th ∧ t = get_bucket_index th old lvl := by
  unfold remIdxs
  constructor
  · intro h
    rcases List.mem_map.mp h with ⟨lvl, hlvl, heq⟩
    exact ⟨lvl, by
      have := List.mem_range.mp (List.mem_reverse.mp hlvl)
      omega, heq.symm⟩
  · rintro ⟨lvl, hlvl, rfl⟩
    exact List.mem_map.mpr ⟨lvl, List.mem_reverse.mpr (List.mem_range.mpr (by omega)), rfl⟩

theorem unique_tree_occurrence {st : PathORAM} {j : Nat}
    (htr : treeCountIdx st.tree (List.range st.tree.length) j = 1) :
    ∃ tstar, tstar < st.tree.length ∧
      countA (st.tree.getD tstar Bucket.empty).blocks j = 1 ∧
      (∀ t ∈ List.range st.tree.length, t ≠ tstar →
        countA (st.tree.getD t Bucket.empty).blocks j = 0) ∧
      ∃ b, lookupA (st.tree.getD tstar Bucket.empty).blocks j = some b := by
  have hex : ¬ ∀ t ∈ List.range st.tree.length,
      countA (st.tree.getD t Bucket.empty).blocks j = 0 := by
    intro hz
    rw [tci_zero hz] at htr
    omega
  push_neg at hex
  obtain ⟨tstar, htmem, htc⟩ := hex
  have htlt := List.mem_range.mp htmem
  have hle := @countA_le_tci st.tree (List.range st.tree.length) _ j htmem
  have hone : countA (st.tree.getD tstar Bucket.empty).blocks j = 1 := by omega
  have hext := @tci_extract st.tree _ _ j (List.nodup_range _) htmem
  have hothers : ∀ t ∈ List.range st.tree.length, t ≠ tstar →
      countA (st.tree.getD t Bucket.empty).blocks j = 0 := by
    intro t ht hne
    have hmem' : t ∈ (List.range st.tree.length).filter (fun x => decide (x ≠ tstar)) :=
      List.mem_filter.mpr ⟨ht, by simpa using hne⟩
    have := @countA_le_tci st.tree
      ((List.range st.tree.length).filter (fun x => decide (x ≠ tstar))) _ j hmem'
    omega
  have hkeymem : j ∈ (st.tree.getD tstar Bucket.empty).blocks.map Prod.fst := by
    by_contra hm
    rw [(countA_eq_zero_iff _ _).mpr hm] at hone
    omega
  obtain ⟨b, hb⟩ := Option.isSome_iff_exists.mp ((lookupA_isSome_iff_mem _ _).mpr hkeymem)
  exact ⟨tstar, htlt, hone, hothers, b, hb⟩

theorem init_tci_self {st : PathORAM} (hPath : OnOwnPath st)
    {id old : Nat} (hpj : lookupA st.position_map id = some old) (hidz : id ≠ 0) :
    treeCountIdx st.tree
      (nonRem st.tree.length
        (remIdxs st.tree_height old ((List.range (st.tree_height + 1)).reverse))) id = 0 := by
  refine tci_zero ?_
  intro t ht
  rcases (mem_nonRem _ _ _).mp ht with ⟨htl, htn⟩
  by_contra hc
  have hmemk : id ∈ ((st.tree.getD t Bucket.empty).blocks.map Prod.fst) := by
    by_contra hm
    exact hc ((countA_eq_zero_iff _ _).mpr hm)
  obtain ⟨b, hb⟩ := Option.isSome_iff_exists.mp ((lookupA_isSome_iff_mem _ _).mpr hmemk)
  have hp := hPath t (List.mem_range.mpr htl) (id, b) (lookupA_mem hb) hidz
  obtain ⟨lvl, hlvl, hte⟩ := hp.2
  rw [hpj] at hte
  apply htn
  refine mem_accessRem.mpr ⟨lvl, ?_, ?_⟩
  · have := List.mem_range.mp hlvl
    omega
  · exact hte

theorem path_values_ne_of_counts {st : PathORAM}
    (hb_k : ∀ bk ∈ st.tree, ∀ p ∈ bk.blocks, p.2.block_id = p.1)
    (hlen : st.tree.length = 2 ^ (st.tree_height + 1) - 1)
    {old : Nat} (hold : old < 2 ^ st.tree_height) {j : Nat}
    (h : ∀ lvl ∈ List.range (st.tree_height + 1),
      countA (st.tree.getD (get_bucket_index st.tree_height old lvl) Bucket.empty).blocks j = 0) :
    ∀ lvl ∈ List.range (st.tree_height + 1),
      ∀ b ∈ (st.tree.getD (get_bucket_index st.tree_height old lvl) Bucket.empty).get_all_blocks,
        b.block_id ≠ j := by
  intro lvl hlvl
  have hlvl' : lvl ≤ st.tree_height := by
    have := List.mem_range.mp hlvl
    omega
  have ht : get_bucket_index st.tree_height old lvl < st.tree.length := by
    rw [hlen]
    exact get_bucket_index_lt hold hlvl'
  exact bucket_values_ne (hb_k _ (getD_mem _ ht)) (h lvl hlvl)

theorem readPathStash_eq (tree : List Bucket) (th old : Nat)
    (stash : List (Nat × Block)) :
    readPathStash tree th old stash =
      (List.range (th + 1)).foldl (readLevel tree th old) stash := rfl

theorem readPhase_cases {placed : Nat → Bool} {st : PathORAM}
    (hH : Hygiene st) (hPath : OnOwnPath st) (hPlace : Placement placed st)
    {old : Nat} (hold : old < 2 ^ st.tree_height)
    {j pj : Nat} (hpj : lookupA st.position_map j = some pj) (hjz : j ≠ 0) :
    countA (readPathStash st.tree st.tree_height old st.stash) j +
      treeCountIdx st.tree
        (nonRem st.tree.length
          (remIdxs st.tree_height old ((List.range (st.tree_height + 1)).reverse))) j
      = totalCount st j
    ∧ (pj = old →
        lookupA (readPathStash st.tree st.tree_height old st.stash) j =
          logicalBlock st j) := by
  obtain ⟨hs_nd, hs_k, hs_nz, hs_reg, hpm_nd, hb_nd, hb_k, hb_cap, hlen, hcap⟩ := hH
  have hpm_mem : (j, pj) ∈ st.position_map := lookupA_mem hpj
  have htot := hPlace (j, pj) hpm_mem
  have htot_le : totalCount st j ≤ 1 := by
    rw [htot]
    split <;> omega
  have hnd1 : ((readPathStash st.tree st.tree_height old st.stash).map Prod.fst).Nodup := by
    rw [readPathStash_eq]
    exact nodupKeys_readPath_fold hs_nd
  have hidx_lt : ∀ lvl ∈ List.range (st.tree_height + 1),
      get_bucket_index st.tree_height old lvl < st.tree.length := by
    intro lvl hlvl
    rw [hlen]
    exact get_bucket_index_lt hold (by have := List.mem_range.mp hlvl; omega)
  rcases hsl : lookupA st.stash j with _ | b
  · have hcs : countA st.stash j = 0 := countA_zero_of_lookup_none hsl
    have htr_le : treeCountIdx st.tree (List.range st.tree.length) j ≤ 1 := by
      unfold totalCount at htot_le
      omega
    by_cases htr : treeCountIdx st.tree (List.range st.tree.length) j = 0
    · have hzero : ∀ lvl ∈ List.range (st.tree_height + 1),
          countA (st.tree.getD (get_bucket_index st.tree_height old lvl) Bucket.empty).blocks j = 0 := by
        intro lvl hlvl
        exact tci_all_zero htr _ (List.mem_range.mpr (hidx_lt lvl hlvl))
      have hpres : lookupA (readPathStash st.tree st.tree_height old st.stash) j =
          lookupA st.stash j := by
        rw [readPathStash_eq]
        exact lookupA_readPath_pres (path_values_ne_of_counts hb_k hlen hold hzero)
      constructor
      · rw [countA_zero_of_lookup_none (hpres.trans hsl)]
        have hle2 := tci_nonRem_le st.tree st.tree.length
          (remIdxs st.tree_height old ((List.range (st.tree_height + 1)).reverse)) j
        unfold totalCount
        omega
      · intro _
        rw [hpres, hsl, logical_none_of_total (by unfold totalCount; omega)]
    · have htr1 : treeCountIdx st.tree (List.range st.tree.length) j = 1 := by omega
      obtain ⟨tstar, htlt, hone, hothers, b, hb⟩ := unique_tree_occurrence htr1
      have hbmem : st.tree.getD tstar Bucket.empty ∈ st.tree := getD_mem _ htlt
      by_cases hrem : tstar ∈
          remIdxs st.tree_height old ((List.range (st.tree_height + 1)).reverse)
      · obtain ⟨lvlstar, hlvlstar, hteq⟩ := mem_accessRem.mp hrem
        have hbu := bucket_values_uniq (hb_k _ hbmem) (hb_nd _ hbmem) hb
        have hothers_v : ∀ lvl ∈ List.range (st.tree_height + 1), lvl ≠ lvlstar →
            ∀ b' ∈ (st.tree.getD (get_bucket_index st.tree_height old lvl) Bucket.empty).get_all_blocks,
              b'.block_id ≠ j := by
          intro lvl hlvl hne
          have hii : get_bucket_index st.tree_height old lvl ≠ tstar := by
            rw [hteq]
            intro heq
            exact hne (get_bucket_index_inj hold
              (by have := List.mem_range.mp hlvl; omega) hlvlstar heq)
          refine bucket_values_ne (hb_k _ (getD_mem _ (hidx_lt lvl hlvl))) ?_
          exact hothers _ (List.mem_range.mpr (hidx_lt lvl hlvl)) hii
        have hfound : lookupA (readPathStash st.tree st.tree_height old st.stash) j =
            some b := by
          rw [readPathStash_eq]
          refine lookupA_readPath_found hjz (List.nodup_range _)
            (List.mem_range.mpr (by omega : lvlstar < st.tree_height + 1))
            ?_ hbu.2.1 ?_ hothers_v
          · rw [← hteq]
            exact hbu.1
          · rw [← hteq]
            exact hbu.2.2
        have htci0 : treeCountIdx st.tree
            (nonRem st.tree.length
              (remIdxs st.tree_height old ((List.range (st.tree_height + 1)).reverse))) j = 0 := by
          refine tci_zero ?_
          intro t ht
          rcases (mem_nonRem _ _ _).mp ht with ⟨htl, htn⟩
          exact hothers t (List.mem_range.mpr htl) (fun he => htn (he ▸ hrem))
        constructor
        · rw [countA_one_of_lookup hnd1 hfound, htci0]
          unfold totalCount
          omega
        · intro _
          rw [hfound, logical_of_tree hsl htlt hb htot_le]
      · have hzero : ∀ lvl ∈ List.range (st.tree_height + 1),
            countA (st.tree.getD (get_bucket_index st.tree_height old lvl) Bucket.empty).blocks j = 0 := by
          intro lvl hlvl
          refine hothers _ (List.mem_range.mpr (hidx_lt lvl hlvl)) ?_
          intro he
          exact hrem (he ▸ mem_accessRem.mpr
            ⟨lvl, by have := List.mem_range.mp hlvl; omega, rfl⟩)
        have hpres : lookupA (readPathStash st.tree st.tree_height old st.stash) j =
            lookupA st.stash j := by
          rw [readPathStash_eq]
          exact lookupA_readPath_pres (path_values_ne_of_counts hb_k hlen hold hzero)
        have htci1 : treeCountIdx st.tree
            (nonRem st.tree.length
              (remIdxs st.tree_height old ((List.range (st.tree_height + 1)).reverse))) j = 1 := by
          rw [tci_nonRem_extract j htlt hrem, hone]
          have : treeCountIdx st.tree
              (nonRem st.tree.length (tstar ::
                remIdxs st.tree_height old ((List.range (st.tree_height + 1)).reverse))) j = 0 := by
            refine tci_zero ?_
            intro t ht
            rcases (mem_nonRem _ _ _).mp ht with ⟨htl, htn⟩
            refine hothers t (List.mem_range.mpr htl) ?_
            intro he
            exact htn (he ▸ List.mem_cons_self _ _)
          omega
        constructor
        · rw [countA_zero_of_lookup_none (hpres.trans hsl), htci1]
          unfold totalCount
          omega
        · intro hpjold
          exfalso
          have hp := hPath tstar (List.mem_range.mpr htlt) (j, b) (lookupA_mem hb) hjz
          obtain ⟨lvl', hlvl', hte⟩ := hp.2
          rw [hpj] at hte
          refine hrem (mem_accessRem.mpr ⟨lvl', by have := List.mem_range.mp hlvl'; omega, ?_⟩)
          rw [hte, hpjold]
          rfl
  · have hcs : countA st.stash j = 1 := countA_one_of_lookup hs_nd hsl
    have htr0 : treeCountIdx st.tree (List.range st.tree.length) j = 0 := by
      unfold totalCount at htot_le
      omega
    have hzero : ∀ lvl ∈ List.range (st.tree_height + 1),
        countA (st.tree.getD (get_bucket_index st.tree_height old lvl) Bucket.empty).blocks j = 0 := by
      intro lvl hlvl
      exact tci_all_zero htr0 _ (List.mem_range.mpr (hidx_lt lvl hlvl))
    have hpres : lookupA (readPathStash st.tree st.tree_height old st.stash) j =
        lookupA st.stash j := by
      rw [readPathStash_eq]
      exact lookupA_readPath_pres (path_values_ne_of_counts hb_k hlen hold hzero)
    constructor
    · rw [countA_one_of_lookup hnd1 (hpres.trans hsl)]
      have hle2 := tci_nonRem_le st.tree st.tree.length
        (remIdxs st.tree_height old ((List.range (st.tree_height + 1)).reverse)) j
      unfold totalCount
      omega
    · intro _
      rw [hpres, hsl, logical_of_stash hsl]

/-! ## The write-back fold -/

theorem wb_fold
    {pm : List (Nat × Nat)} {target : Nat → Option Block} {placed : Nat → Bool}
    {cap th old : Nat} (hcap : 1 ≤ cap) (hold : old < 2 ^ th)
    (hpmz : ∀ p ∈ pm, p.1 ≠ 0) :
    ∀ (levels : List Nat), (∀ l ∈ levels, l ≤ th) → levels.Nodup →
    ∀ (tree : List Bucket) (stash : List (Nat × Block)),
      WBInv pm target placed cap th old levels tree stash →
      WBInv pm target placed cap th old []
        (levels.foldl (evictLevel cap th old pm) (tree, stash)).1
        (levels.foldl (evictLevel cap th old pm) (tree, stash)).2 := by
  intro levels
  induction levels with
  | nil =>
    intro _ _ tree stash h
    simpa using h
  | cons lvl ls ih =>
    intro hle hnd tree stash hinv
    simp only [List.foldl_cons]
    have hndc := List.nodup_cons.mp hnd
    have hstep := wb_step hcap hold hpmz (hle lvl (List.mem_cons_self _ _))
      (fun l hl => hle l (List.mem_cons_of_mem _ hl)) hndc.1 hinv
    exact ih (fun l hl => hle l (List.mem_cons_of_mem _ hl)) hndc.2
      (evictLevel cap th old pm (tree, stash) lvl).1
      (evictLevel cap th old pm (tree, stash) lvl).2 hstep

/-! ## The tail of `access`: write-back and the resulting state -/

theorem access_tail
    (N : Nat) (placed placed' : Nat → Bool) (st : PathORAM)
    (hH : Hygiene st) (hDom : PMDomain N st) (hRange : PMRange st)
    (hPlace : Placement placed st) (hPath : OnOwnPath st)
    (id : Nat) (hid1 : 1 ≤ id) (hid2 : id ≤ N)
    (old : Nat) (hold_eq : lookupA st.position_map id = some old)
    (pos : Nat) (hpos : pos < 2 ^ st.tree_height)
    (stash2 : List (Nat × Block)) (target : Nat → Option Block)
    (hplaced' : ∀ j, j ≠ id → placed' j = placed j)
    (htarget_ne : ∀ j, j ≠ id → target j = logicalBlock st j)
    (htarget_none : ∀ j, (∃ pj, (j, pj) ∈ st.position_map) →
      placed' j = false → target j = none)
    (hs2_nd : (stash2.map Prod.fst).Nodup)
    (hs2_k : ∀ p ∈ stash2, p.2.block_id = p.1)
    (hs2_nz : ∀ p ∈ stash2, p.1 ≠ 0)
    (hs2_reg : ∀ p ∈ stash2, (lookupA (insertA st.position_map id pos) p.1).isSome)
    (hs2_target : ∀ p ∈ stash2, target p.1 = some p.2)
    (hcount_id : countA stash2 id = if placed' id then 1 else 0)
    (hcount_ne : ∀ j, j ≠ id → countA stash2 j =
        countA (readPathStash st.tree st.tree_height old st.stash) j) :
    OramInv N placed' (accessPost st id pos old stash2) ∧
      (∀ j, 1 ≤ j → j ≤ N →
        logicalBlock (accessPost st id pos old stash2) j = target j) := by
  obtain ⟨hs_nd, hs_k, hs_nz, hs_reg, hpm_nd, hb_nd, hb_k, hb_cap, hlen, hcap⟩ := hH
  have hold : old < 2 ^ st.tree_height := hRange (id, old) (lookupA_mem hold_eq)
  have hidz : id ≠ 0 := by omega
  have hid_keys : id ∈ st.position_map.map Prod.fst :=
    (lookupA_isSome_iff_mem _ _).mp (by rw [hold_eq]; rfl)
  have hpm'_keys : (insertA st.position_map id pos).map Prod.fst =
      st.position_map.map Prod.fst := keys_insertA_of_mem _ _ _ hid_keys
  have hpm'_nd : ((insertA st.position_map id pos).map Prod.fst).Nodup := by
    rw [hpm'_keys]; exact hpm_nd
  have hpmz' : ∀ p ∈ insertA st.position_map id pos, p.1 ≠ 0 := by
    intro p hp
    rcases mem_insertA hp with rfl | hp'
    · exact hidz
    · have := (hDom.1 p hp').1
      omega
  have hlook_ne : ∀ j, j ≠ id →
      lookupA (insertA st.position_map id pos) j = lookupA st.position_map j :=
    fun j hj => lookupA_insertA_ne _ _ hj
  have hreg_iff : ∀ j, (lookupA (insertA st.position_map id pos) j).isSome ↔
      (lookupA st.position_map j).isSome := by
    intro j
    rw [lookupA_isSome_iff_mem, lookupA_isSome_iff_mem, hpm'_keys]
  -- the initial write-back invariant
  have hinit : WBInv (insertA st.position_map id pos) target placed'
      st.capacity st.tree_height old ((List.range (st.tree_height + 1)).reverse)
      st.tree stash2 := by
    refine ⟨hs2_nd, hs2_k, hs2_nz, hs2_reg, hb_nd, hb_k, hb_cap, hlen, ?_, ?_, hs2_target, ?_⟩
    · -- counts
      intro p hp
      unfold liveCount
      by_cases hj : p.1 = id
      · rw [hj, hcount_id, init_tci_self hPath hold_eq hidz]
        omega
      · have hp' : p ∈ st.position_map := by
          rcases mem_insertA hp with rfl | hp'
          · exact absurd rfl hj
          · exact hp'
        have hpj : lookupA st.position_map p.1 = some p.2 :=
          lookupA_of_mem_nodup hpm_nd hp'
        have hz : p.1 ≠ 0 := by
          have := (hDom.1 p hp').1
          omega
        have hRPC := (readPhase_cases
          ⟨hs_nd, hs_k, hs_nz, hs_reg, hpm_nd, hb_nd, hb_k, hb_cap, hlen, hcap⟩
          hPath hPlace hold hpj hz).1
        rw [hcount_ne p.1 hj, hRPC, hPlace (p.1, p.2) hp', hplaced' p.1 hj]
    · -- onpath
      intro t ht p hpt hpz
      have hPt := hPath t (by
        rcases (mem_nonRem _ _ _).mp ht with ⟨htl, _⟩
        exact List.mem_range.mpr htl) p hpt hpz
      have hpne : p.1 ≠ id := by
        intro he
        obtain ⟨lvl, hlvl, hte⟩ := hPt.2
        rw [he, hold_eq] at hte
        rcases (mem_nonRem _ _ _).mp ht with ⟨_, htn⟩
        exact htn (mem_accessRem.mpr ⟨lvl, by
          have := List.mem_range.mp hlvl
          omega, hte⟩)
      rw [hlook_ne p.1 hpne]
      exact hPt
    · -- tree_target
      intro t ht p hpt hpz
      rcases (mem_nonRem _ _ _).mp ht with ⟨htl, htn⟩
      have hPt := hPath t (List.mem_range.mpr htl) p hpt hpz
      have hpne : p.1 ≠ id := by
        intro he
        obtain ⟨lvl, hlvl, hte⟩ := hPt.2
        rw [he, hold_eq] at hte
        exact htn (mem_accessRem.mpr ⟨lvl, by
          have := List.mem_range.mp hlvl
          omega, hte⟩)
      rw [htarget_ne p.1 hpne]
      exact tree_entry_logical
        ⟨hs_nd, hs_k, hs_nz, hs_reg, hpm_nd, hb_nd, hb_k, hb_cap, hlen, hcap⟩
        hPath hPlace htl hpt hpz
  -- run the write-back fold
  have hfold := @wb_fold (insertA st.position_map id pos) target
    placed' _ _ _ hcap hold hpmz' ((List.range (st.tree_height + 1)).reverse)
    (fun l hl => by
      have := List.mem_range.mp (List.mem_reverse.mp hl)
      omega)
    (List.nodup_reverse.mpr (List.nodup_range _)) st.tree stash2 hinit
  -- name the components of the folded state
  obtain ⟨hf_s_nd, hf_s_k, hf_s_nz, hf_s_reg, hf_b_nd, hf_b_k, hf_b_cap, hf_len,
    hf_counts, hf_onpath, hf_s_tgt, hf_t_tgt⟩ := hfold
  have hnil : remIdxs st.tree_height old ([] : List Nat) = [] := rfl
  rw [hnil] at hf_counts hf_onpath hf_t_tgt
  -- the placement of the post state
  have hplacePost : ∀ p ∈ insertA st.position_map id pos,
      totalCount (accessPost st id pos old stash2) p.1 =
        (if placed' p.1 then 1 else 0) := by
    intro p hp
    have := hf_counts p hp
    unfold liveCount at this
    rw [nonRem_nil] at this
    exact this
  have hOramInv : OramInv N placed' (accessPost st id pos old stash2) := by
    refine ⟨⟨hf_s_nd, hf_s_k, hf_s_nz, hf_s_reg, hpm'_nd, hf_b_nd, hf_b_k, hf_b_cap,
      hf_len, hcap⟩, ⟨?_, ?_⟩, ?_, hplacePost, ?_⟩
    · intro p hp
      rcases mem_insertA hp with rfl | hp'
      · exact ⟨hid1, hid2⟩
      · exact hDom.1 p hp'
    · intro i hi
      show (lookupA (insertA st.position_map id pos) (i + 1)).isSome = true
      rw [hreg_iff]
      exact hDom.2 i hi
    · intro p hp
      rcases mem_insertA hp with rfl | hp'
      · exact hpos
      · exact hRange p hp'
    · intro t ht p hpt hpz
      have ht' : t ∈ nonRem (accessPost st id pos old stash2).tree.length [] := by
        rw [nonRem_nil]
        exact ht
      exact hf_onpath t ht' p hpt hpz
  refine ⟨hOramInv, ?_⟩
  -- logical values of the post state
  intro j hj1 hj2
  have hregj : (lookupA (insertA st.position_map id pos) j).isSome := by
    rw [hreg_iff]
    have := hDom.2 (j - 1) (List.mem_range.mpr (by omega))
    have he : j - 1 + 1 = j := by omega
    rwa [he] at this
  obtain ⟨pj', hpj'⟩ := Option.isSome_iff_exists.mp hregj
  have htotj := hplacePost (j, pj') (lookupA_mem hpj')
  rcases hpl : placed' j with _ | _
  · -- not placed: nowhere, and the target is none
    rw [hpl] at htotj
    simp only [Bool.false_eq_true, if_false] at htotj
    rw [logical_none_of_total htotj, htarget_none j ?_ hpl]
    obtain ⟨pj0, hpj0⟩ := Option.isSome_iff_exists.mp ((hreg_iff j).mp hregj)
    exact ⟨pj0, lookupA_mem hpj0⟩
  · rw [hpl] at htotj
    simp only [if_true] at htotj
    rcases hls : lookupA (accessPost st id pos old stash2).stash j with _ | b
    · -- in the tree
      rcases hfind : treeFindIdx (accessPost st id pos old stash2).tree j
          (List.range (accessPost st id pos old stash2).tree.length) with _ | b
      · exfalso
        have hzero : ∀ t ∈ List.range (accessPost st id pos old stash2).tree.length,
            countA ((accessPost st id pos old stash2).tree.getD t Bucket.empty).blocks j = 0 :=
          fun t ht => countA_zero_of_lookup_none (treeFindIdx_none_all hfind t ht)
        have h0 : totalCount (accessPost st id pos old stash2) j = 0 := by
          unfold totalCount
          rw [countA_zero_of_lookup_none hls, tci_zero hzero]
        omega
      · have hlb : logicalBlock (accessPost st id pos old stash2) j = some b := by
          unfold logicalBlock
          rw [hls, hfind]
        rw [hlb]
        obtain ⟨t, ht, hlk⟩ := treeFindIdx_mem hfind
        have ht' : t ∈ nonRem (accessPost st id pos old stash2).tree.length [] := by
          rw [nonRem_nil]
          exact ht
        have hjz : j ≠ 0 := by omega
        exact (hf_t_tgt t ht' (j, b) (lookupA_mem hlk) hjz).symm
    · rw [logical_of_stash hls]
      exact (hf_s_tgt (j, b) (lookupA_mem hls)).symm

/-! ## The master theorem for `access` -/

theorem access_master (N : Nat) (placed : Nat → Bool) (st : PathORAM)
    (hInv : OramInv N placed st) (op : String) (id : Nat)
    (hid1 : 1 ≤ id) (hid2 : id ≤ N)
    (d : Option Nat) (hd : op = "write" → d.isSome)
    (pos : Nat) (hpos : pos < 2 ^ st.tree_height) :
    ∃ st', st.access op id d pos = some (logicalVal st id, st') ∧
      OramInv N (fun j => if j = id then (placed id || decide (op = "write")) else placed j) st' ∧
      st'.tree_height = st.tree_height ∧ st'.capacity = st.capacity ∧
      (∀ j, 1 ≤ j → j ≤ N →
        logicalVal st' j = if j = id ∧ op = "write" then d else logicalVal st j) := by
  obtain ⟨hH, hDom, hRange, hPlace, hPath⟩ := hInv
  have hreg : (lookupA st.position_map id).isSome := by
    have h := hDom.2 (id - 1) (List.mem_range.mpr (by omega))
    have he : id - 1 + 1 = id := by omega
    rwa [he] at h
  obtain ⟨old, hold_eq⟩ := Option.isSome_iff_exists.mp hreg
  have hold : old < 2 ^ st.tree_height := hRange (id, old) (lookupA_mem hold_eq)
  have hidz : id ≠ 0 := by omega
  have hRPid := readPhase_cases hH hPath hPlace hold hold_eq hidz
  have hdata := hRPid.2 rfl
  have hs1_nd : ((readPathStash st.tree st.tree_height old st.stash).map Prod.fst).Nodup := by
    rw [readPathStash_eq]
    exact nodupKeys_readPath_fold hH.1
  have hs1_k : ∀ p ∈ readPathStash st.tree st.tree_height old st.stash,
      p.2.block_id = p.1 := by
    intro p hp
    rw [readPathStash_eq] at hp
    rcases mem_readPath_fold hp with h1 | ⟨lvl, _, b, _, rfl, _⟩
    · exact hH.2.1 p h1
    · rfl
  have hs1_nz : ∀ p ∈ readPathStash st.tree st.tree_height old st.stash, p.1 ≠ 0 := by
    intro p hp
    rw [readPathStash_eq] at hp
    rcases mem_readPath_fold hp with h1 | ⟨lvl, _, b, _, rfl, hz⟩
    · exact hH.2.2.1 p h1
    · exact hz
  have hs1_reg : ∀ p ∈ readPathStash st.tree st.tree_height old st.stash,
      (lookupA st.position_map p.1).isSome := by
    intro p hp
    rw [readPathStash_eq] at hp
    rcases mem_readPath_fold hp with h1 | ⟨lvl, hlvl, b, hb, rfl, hz⟩
    · exact hH.2.2.2.1 p h1
    · have hlvl' : lvl ≤ st.tree_height := by
        have := List.mem_range.mp hlvl
        omega
      have ht : get_bucket_index st.tree_height old lvl < st.tree.length := by
        rw [hH.2.2.2.2.2.2.2.2.1]
        exact get_bucket_index_lt hold hlvl'
      have hentry := bucket_values_entry (hH.2.2.2.2.2.2.1 _ (getD_mem _ ht)) hb
      exact (hPath _ (List.mem_range.mpr ht) (b.block_id, b) hentry hz).1
  have hs1_target : ∀ p ∈ readPathStash st.tree st.tree_height old st.stash,
      logicalBlock st p.1 = some p.2 := by
    intro p hp
    rw [readPathStash_eq] at hp
    exact stash1_entry_logical hH hPath hPlace hold (by rw [readPathStash_eq]; exact hp)
  by_cases hop : op = "write"
  · subst hop
    obtain ⟨v, hv⟩ := Option.isSome_iff_exists.mp (hd rfl)
    subst hv
    have htail := access_tail N placed
      (fun j => if j = id then (placed id || decide (("write" : String) = "write")) else placed j)
      st hH hDom hRange hPlace hPath id hid1 hid2 old hold_eq pos hpos
      (insertA (readPathStash st.tree st.tree_height old st.stash) id ⟨id, v⟩)
      (fun j => if j = id then some (⟨id, v⟩ : Block) else logicalBlock st j)
      (fun j hj => by simp [hj])
      (fun j hj => by simp [hj])
      (fun j hreg' hpl => by
        by_cases hj : j = id
        · rw [hj] at hpl
          simp at hpl
        · simp only [if_neg hj] at hpl ⊢
          obtain ⟨pj, hpj⟩ := hreg'
          have := hPlace (j, pj) hpj
          rw [hpl] at this
          simp at this
          exact logical_none_of_total this)
      (nodupKeys_insertA _ _ hs1_nd)
      (by
        intro p hp
        rcases mem_insertA hp with rfl | hp'
        · rfl
        · exact hs1_k p hp')
      (by
        intro p hp
        rcases mem_insertA hp with rfl | hp'
        · exact hidz
        · exact hs1_nz p hp')
      (by
        intro p hp
        by_cases hpj : p.1 = id
        · rw [hpj, lookupA_insertA_self]
          rfl
        · rw [lookupA_insertA_ne _ _ hpj]
          rcases mem_insertA hp with rfl | hp'
          · exact absurd rfl hpj
          · exact hs1_reg p hp')
      (by
        intro p hp
        by_cases hpj : p.1 = id
        · have h1 : lookupA (insertA (readPathStash st.tree st.tree_height old st.stash)
              id ⟨id, v⟩) p.1 = some p.2 :=
            lookupA_of_mem_nodup (nodupKeys_insertA _ _ hs1_nd) (by
              rcases p with ⟨k, b⟩
              exact hp)
          rw [hpj] at h1
          rw [lookupA_insertA_self] at h1
          rw [hpj]
          show (if id = id then some (⟨id, v⟩ : Block) else logicalBlock st id) = some p.2
          rw [if_pos rfl]
          exact h1
        · simp only [if_neg hpj]
          rcases mem_insertA hp with rfl | hp'
          · exact absurd rfl hpj
          · exact hs1_target p hp')
      (by
        have hm : id ∈ (insertA (readPathStash st.tree st.tree_height old st.stash)
            id ⟨id, v⟩).map Prod.fst :=
          (lookupA_isSome_iff_mem _ _).mp (by rw [lookupA_insertA_self]; rfl)
        rw [countA_of_nodup _ (nodupKeys_insertA _ _ hs1_nd), if_pos hm]
        simp)
      (fun j hj => countA_insertA_ne _ hj)
    refine ⟨accessPost st id pos old
      (insertA (readPathStash st.tree st.tree_height old st.stash) id ⟨id, v⟩), ?_, htail.1, rfl, rfl, ?_⟩
    · show PathORAM.access st "write" id (some v) pos = _
      unfold PathORAM.access
      rw [hold_eq]
      show some ((lookupA (readPathStash st.tree st.tree_height old st.stash) id).map
        Block.data, _) = _
      rw [hdata]
      rfl
    · intro j hj1 hj2
      have hl := htail.2 j hj1 hj2
      by_cases hj : j = id
      · subst hj
        rw [if_pos ⟨rfl, rfl⟩]
        unfold logicalVal
        rw [hl]
        simp
      · rw [if_neg (fun hc => hj hc.1)]
        unfold logicalVal
        rw [hl]
        simp [hj]
  · have hlam : ∀ j, (if j = id then (placed id || decide (op = "write")) else placed j)
        = placed j := by
      intro j
      by_cases hj : j = id <;> simp [hj, hop]
    have htail := access_tail N placed
      (fun j => if j = id then (placed id || decide (op = "write")) else placed j)
      st hH hDom hRange hPlace hPath id hid1 hid2 old hold_eq pos hpos
      (readPathStash st.tree st.tree_height old st.stash)
      (fun j => logicalBlock st j)
      (fun j _ => hlam j)
      (fun j _ => rfl)
      (fun j hreg' hpl => by
        simp only [hlam] at hpl
        obtain ⟨pj, hpj⟩ := hreg'
        have := hPlace (j, pj) hpj
        rw [hpl] at this
        simp at this
        exact logical_none_of_total this)
      hs1_nd hs1_k hs1_nz
      (by
        intro p hp
        by_cases hpj : p.1 = id
        · rw [hpj, lookupA_insertA_self]
          rfl
        · rw [lookupA_insertA_ne _ _ hpj]
          exact hs1_reg p hp)
      hs1_target
      (by
        have h1 := hRPid.1
        rw [init_tci_self hPath hold_eq hidz] at h1
        have h2 := hPlace (id, old) (lookupA_mem hold_eq)
        rw [h2] at h1
        rcases hpl : placed id with _ | _ <;> rw [hpl] at h1 <;> simp at h1 <;>
          simp [h1, hpl, hop])
      (fun j _ => rfl)
    refine ⟨accessPost st id pos old
      (readPathStash st.tree st.tree_height old st.stash), ?_, htail.1, rfl, rfl, ?_⟩
    · show PathORAM.access st op id d pos = _
      unfold PathORAM.access
      rw [hold_eq]
      simp only [if_neg hop]
      show some ((lookupA (readPathStash st.tree st.tree_height old st.stash) id).map
        Block.data, _) = _
      rw [hdata]
      rfl
    · intro j hj1 hj2
      have hl := htail.2 j hj1 hj2
      rw [if_neg (fun hc => hop hc.2)]
      unfold logicalVal
      rw [hl]

/-! ## Invariant transport along `placed` -/

theorem OramInv_congr {N : Nat} {placed placed' : Nat → Bool} {st : PathORAM}
    (h : OramInv N placed st)
    (he : ∀ i, 1 ≤ i → i ≤ N → placed i = placed' i) : OramInv N placed' st := by
  obtain ⟨hH, hDom, hRange, hPlace, hPath⟩ := h
  refine ⟨hH, hDom, hRange, ?_, hPath⟩
  intro p hp
  rw [← he p.1 (hDom.1 p hp).1 (hDom.1 p hp).2]
  exact hPlace p hp

/-! ## Running request sequences -/

theorem runOps_master (N : Nat) :
    ∀ (reqs : List Req) (st : PathORAM), OramInv N (fun _ => true) st →
    (∀ r ∈ reqs, ValidReq N st.tree_height r) →
    ∃ st', runOps st reqs = some st' ∧ OramInv N (fun _ => true) st' ∧
      st'.tree_height = st.tree_height ∧ st'.capacity = st.capacity ∧
      (∀ j, 1 ≤ j → j ≤ N → (∀ r ∈ reqs, r.op = "write" → r.id ≠ j) →
        logicalVal st' j = logicalVal st j) := by
  intro reqs
  induction reqs with
  | nil =>
    intro st hInv _
    exact ⟨st, rfl, hInv, rfl, rfl, fun j _ _ _ => rfl⟩
  | cons r rs ih =>
    intro st hInv hv
    have hvr := hv r (List.mem_cons_self _ _)
    obtain ⟨st1, hacc, hInv1, hth1, hcap1, hlog1⟩ :=
      access_master N (fun _ => true) st hInv r.op r.id hvr.1 hvr.2.1
        r.data hvr.2.2.2 r.pos hvr.2.2.1
    have hInv1' : OramInv N (fun _ => true) st1 :=
      OramInv_congr hInv1 (fun i _ _ => by by_cases hi : i = r.id <;> simp [hi])
    obtain ⟨st', hrun, hInv', hth', hcap', hlog'⟩ := ih st1 hInv1'
      (fun q hq => by
        have := hv q (List.mem_cons_of_mem _ hq)
        rwa [← hth1] at this)
    refine ⟨st', ?_, hInv', hth'.trans hth1, hcap'.trans hcap1, ?_⟩
    · unfold runOps
      rw [hacc]
      exact hrun
    · intro j hj1 hj2 hnw
      rw [hlog' j hj1 hj2 (fun q hq => hnw q (List.mem_cons_of_mem _ hq)),
        hlog1 j hj1 hj2, if_neg]
      rintro ⟨rfl, hw⟩
      exact hnw r (List.mem_cons_self _ _) hw rfl

/-! ## Construction: the initial bucket -/

theorem add_block_dummy_single (Z : Nat) :
    Bucket.add_block ⟨[(0, dummyBlock)], Z⟩ dummyBlock = some ⟨[(0, dummyBlock)], Z⟩ := by
  unfold Bucket.add_block
  by_cases h : Z ≤ 1 <;> simp [h, eraseA, insertA, dummyBlock]

theorem initBucket_fold (Z : Nat) (l : List Nat) :
    l.foldlM (fun bk _ => Bucket.add_block bk dummyBlock)
      (⟨[(0, dummyBlock)], Z⟩ : Bucket) = some ⟨[(0, dummyBlock)], Z⟩ := by
  induction l with
  | nil => rfl
  | cons a l ih =>
    rw [List.foldlM_cons, add_block_dummy_single]
    exact ih

theorem initBucket_eq (Z : Nat) (hZ : 1 ≤ Z) :
    initBucket Z = some ⟨[(0, dummyBlock)], Z⟩ := by
  unfold initBucket
  obtain ⟨k, rfl⟩ : ∃ k, Z = k + 1 := ⟨Z - 1, by omega⟩
  rw [List.range_succ_eq_map, List.foldlM_cons]
  have hfirst : Bucket.add_block (Bucket.new (k + 1)) dummyBlock =
      some ⟨[(0, dummyBlock)], k + 1⟩ := by
    unfold Bucket.add_block Bucket.new
    simp [insertA, dummyBlock]
  rw [hfirst]
  exact initBucket_fold (k + 1) _

/-! ## Construction: the initial position map -/

theorem initPositionMap_lookup (N : Nat) (ip : Nat → Nat) (j : Nat) :
    lookupA (initPositionMap N ip) j =
      if 1 ≤ j ∧ j ≤ N then some (ip j) else none := by
  induction N with
  | zero =>
    rw [if_neg (by omega)]
    rfl
  | succ n ih =>
    unfold initPositionMap at ih ⊢
    rw [List.range_succ, List.foldl_append]
    simp only [List.foldl_cons, List.foldl_nil]
    by_cases hj : j = n + 1
    · subst hj
      rw [lookupA_insertA_self, if_pos (by omega)]
    · rw [lookupA_insertA_ne _ _ hj, ih]
      by_cases hc : 1 ≤ j ∧ j ≤ n
      · rw [if_pos hc, if_pos (by omega)]
      · rw [if_neg hc, if_neg (by omega)]

theorem initPositionMap_nodup (N : Nat) (ip : Nat → Nat) :
    ((initPositionMap N ip).map Prod.fst).Nodup := by
  induction N with
  | zero => simp [initPositionMap]
  | succ n ih =>
    unfold initPositionMap at ih ⊢
    rw [List.range_succ, List.foldl_append]
    simp only [List.foldl_cons, List.foldl_nil]
    exact nodupKeys_insertA _ _ ih

theorem initPositionMap_mem {N : Nat} {ip : Nat → Nat} {p : Nat × Nat}
    (hp : p ∈ initPositionMap N ip) :
    1 ≤ p.1 ∧ p.1 ≤ N ∧ p.2 = ip p.1 := by
  have hl : lookupA (initPositionMap N ip) p.1 = some p.2 :=
    lookupA_of_mem_nodup (initPositionMap_nodup N ip) (by rcases p with ⟨a, b⟩; exact hp)
  rw [initPositionMap_lookup] at hl
  by_cases hc : 1 ≤ p.1 ∧ p.1 ≤ N
  · rw [if_pos hc] at hl
    exact ⟨hc.1, hc.2, (Option.some_inj.mp hl).symm⟩
  · rw [if_neg hc] at hl
    exact Option.noConfusion hl

/-! ## Construction: the pre-bootstrap state -/

theorem initState_inv (N Z : Nat) (hN : 1 ≤ N) (hZ : 1 ≤ Z) (ip : Nat → Nat)
    (hip : ∀ i, ip i < 2 ^ ceilLog2 N) :
    OramInv N (fun _ => false) (initState N Z ip ⟨[(0, dummyBlock)], Z⟩) := by
  have hmem_tree : ∀ bk ∈ (initState N Z ip ⟨[(0, dummyBlock)], Z⟩).tree,
      bk = ⟨[(0, dummyBlock)], Z⟩ := by
    intro bk hbk
    exact List.eq_of_mem_replicate hbk
  refine ⟨⟨by simp [initState], by simp [initState], by simp [initState],
    by simp [initState], initPositionMap_nodup N ip, ?_, ?_, ?_, ?_, hZ⟩,
    ⟨?_, ?_⟩, ?_, ?_, ?_⟩
  · intro bk hbk
    rw [hmem_tree bk hbk]
    simp
  · intro bk hbk p hp
    rw [hmem_tree bk hbk] at hp
    rcases List.mem_singleton.mp hp with rfl
    rfl
  · intro bk hbk
    rw [hmem_tree bk hbk]
    rfl
  · simp [initState]
  · intro p hp
    have := initPositionMap_mem hp
    exact ⟨this.1, this.2.1⟩
  · intro i hi
    show (lookupA (initPositionMap N ip) (i + 1)).isSome = true
    rw [initPositionMap_lookup, if_pos (by have := List.mem_range.mp hi; omega)]
    rfl
  · intro p hp
    have := initPositionMap_mem hp
    rw [this.2.2]
    exact hip p.1
  · intro p hp
    have hz : p.1 ≠ 0 := by
      have := (initPositionMap_mem hp).1
      omega
    have htz : ∀ t ∈ List.range (initState N Z ip ⟨[(0, dummyBlock)], Z⟩).tree.length,
        countA ((initState N Z ip ⟨[(0, dummyBlock)], Z⟩).tree.getD t Bucket.empty).blocks p.1 = 0 := by
      intro t ht
      have hlt := List.mem_range.mp ht
      have := hmem_tree _ (getD_mem Bucket.empty hlt)
      rw [this]
      have h0 : ¬ (0 : Nat) = p.1 := fun hh => hz hh.symm
      simp [countA, h0]
    show countA (initState N Z ip ⟨[(0, dummyBlock)], Z⟩).stash p.1 +
      treeCountIdx _ _ _ = _
    rw [tci_zero htz]
    simp [initState, countA]
  · intro t ht p hp hpz
    have hlt := List.mem_range.mp ht
    have := hmem_tree _ (getD_mem Bucket.empty hlt)
    rw [this] at hp
    rcases List.mem_singleton.mp hp with rfl
    exact absurd rfl hpz

/-! ## Construction: the bootstrap write pass -/

theorem boot_fold (N Z : Nat) (hN : 1 ≤ N) (hZ : 1 ≤ Z) (ip bp : Nat → Nat)
    (hip : ∀ i, ip i < 2 ^ ceilLog2 N) (hbp : ∀ i, bp i < 2 ^ ceilLog2 N) :
    ∀ k, k ≤ N →
    ∃ st, (List.range k).foldlM
        (fun st i => (PathORAM.access st "write" (i + 1) (some 0) (bp (i + 1))).map
          Prod.snd)
        (initState N Z ip ⟨[(0, dummyBlock)], Z⟩) = some st ∧
      OramInv N (fun i => decide (1 ≤ i ∧ i ≤ k)) st ∧
      st.tree_height = ceilLog2 N ∧ st.capacity = Z := by
  intro k
  induction k with
  | zero =>
    intro _
    refine ⟨_, rfl, ?_, rfl, rfl⟩
    refine OramInv_congr (initState_inv N Z hN hZ ip hip) ?_
    intro i h1 h2
    symm
    simp
    omega
  | succ k ih =>
    intro hk
    obtain ⟨stk, hrun, hInvK, hthk, hcapk⟩ := ih (by omega)
    obtain ⟨st', hacc, hInv', hth', hcap', _⟩ :=
      access_master N _ stk hInvK "write" (k + 1) (by omega) (by omega)
        (some 0) (fun _ => rfl) (bp (k + 1)) (by rw [hthk]; exact hbp (k + 1))
    refine ⟨st', ?_, ?_, hth'.trans hthk, hcap'.trans hcapk⟩
    · rw [List.range_succ, List.foldlM_append, hrun]
      simp only [Option.bind_eq_bind, Option.some_bind, List.foldlM_cons, List.foldlM_nil]
      rw [hacc]
      rfl
    · refine OramInv_congr hInv' ?_
      intro i h1 h2
      by_cases hi : i = k + 1
      · subst hi
        simp
      · simp [hi]
        have h3 : (i ≤ k) = (i ≤ k + 1) := propext (by constructor <;> omega)
        simp only [h3]

theorem new_master (N Z : Nat) (hN : 1 ≤ N) (hZ : 1 ≤ Z) (ip bp : Nat → Nat)
    (hip : ∀ i, ip i < 2 ^ ceilLog2 N) (hbp : ∀ i, bp i < 2 ^ ceilLog2 N) :
    ∃ st, PathORAM.new N Z ip bp = some st ∧ OramInv N (fun _ => true) st ∧
      st.tree_height = ceilLog2 N ∧ st.capacity = Z := by
  obtain ⟨st, hrun, hInv, hth, hcap⟩ := boot_fold N Z hN hZ ip bp hip hbp N (le_refl N)
  refine ⟨st, ?_, ?_, hth, hcap⟩
  · unfold PathORAM.new
    rw [initBucket_eq Z hZ]
    exact hrun
  · refine OramInv_congr hInv ?_
    intro i h1 h2
    simp
    omega

/-! ## The placement property in path form -/

theorem exactlyOnePlace_of_inv {N : Nat} {st : PathORAM}
    (h : OramInv N (fun _ => true) st) {i : Nat} (h1 : 1 ≤ i) (h2 : i ≤ N) :
    exactlyOnePlace st i := by
  obtain ⟨hH, hDom, hRange, hPlace, hPath⟩ := h
  have hreg : (lookupA st.position_map i).isSome := by
    have h := hDom.2 (i - 1) (List.mem_range.mpr (by omega))
    have he : i - 1 + 1 = i := by omega
    rwa [he] at h
  obtain ⟨pi, hpi⟩ := Option.isSome_iff_exists.mp hreg
  have hpi_lt : pi < 2 ^ st.tree_height := hRange (i, pi) (lookupA_mem hpi)
  have hiz : i ≠ 0 := by omega
  have htot := hPlace (i, pi) (lookupA_mem hpi)
  simp only [if_true] at htot
  have hplist_lt : ∀ t ∈ pathIdxList st.tree_height pi, t < st.tree.length := by
    intro t ht
    rcases List.mem_map.mp ht with ⟨lvl, hlvl, rfl⟩
    rw [hH.2.2.2.2.2.2.2.2.1]
    exact get_bucket_index_lt hpi_lt (by have := List.mem_range.mp hlvl; omega)
  have hplist_nodup : (pathIdxList st.tree_height pi).Nodup := by
    refine List.Nodup.map_on ?_ (List.nodup_range _)
    intro a ha b hb heq
    exact get_bucket_index_inj hpi_lt
      (by have := List.mem_range.mp ha; omega)
      (by have := List.mem_range.mp hb; omega) heq
  have hoff : ∀ t ∈ List.range st.tree.length,
      t ∉ pathIdxList st.tree_height pi →
      countA (st.tree.getD t Bucket.empty).blocks i = 0 := by
    intro t ht htn
    by_contra hc
    have hmemk : i ∈ ((st.tree.getD t Bucket.empty).blocks.map Prod.fst) := by
      by_contra hm
      exact hc ((countA_eq_zero_iff _ _).mpr hm)
    obtain ⟨b, hb⟩ := Option.isSome_iff_exists.mp ((lookupA_isSome_iff_mem _ _).mpr hmemk)
    have hp := hPath t ht (i, b) (lookupA_mem hb) hiz
    obtain ⟨lvl, hlvl, hte⟩ := hp.2
    rw [hpi] at hte
    refine htn (List.mem_map.mpr ⟨lvl, hlvl, ?_⟩)
    exact hte.symm
  have hsplit := tci_split st.tree (List.range st.tree.length) i
    (fun t => decide (t ∈ pathIdxList st.tree_height pi))
  have hz2 : treeCountIdx st.tree
      ((List.range st.tree.length).filter
        (fun t => ! decide (t ∈ pathIdxList st.tree_height pi))) i = 0 := by
    refine tci_zero ?_
    intro t ht
    rcases List.mem_filter.mp ht with ⟨ht1, ht2⟩
    refine hoff t ht1 ?_
    simpa using ht2
  have hperm : ((List.range st.tree.length).filter
      (fun t => decide (t ∈ pathIdxList st.tree_height pi))).Perm
      (pathIdxList st.tree_height pi) := by
    refine List.perm_of_nodup_nodup_toFinset_eq
      ((List.nodup_range _).filter _) hplist_nodup ?_
    apply Finset.ext
    intro a
    simp only [List.mem_toFinset, List.mem_filter, List.mem_range, decide_eq_true_eq]
    constructor
    · rintro ⟨_, hmem⟩
      exact hmem
    · intro hmem
      exact ⟨hplist_lt a hmem, hmem⟩
  have heqp : treeCountIdx st.tree (pathIdxList st.tree_height pi) i =
      treeCountIdx st.tree (List.range st.tree.length) i := by
    have hp2 := @tci_perm st.tree _ _ i hperm
    omega
  unfold exactlyOnePlace pathCount
  rw [hpi]
  show countA st.stash i + treeCountIdx st.tree (pathIdxList st.tree_height pi) i = 1
  rw [heqp]
  unfold totalCount at htot
  exact htot

/-! ## The ceiling logarithm -/

theorem clog2Fuel_congr : ∀ (f g n : Nat), n ≤ f → n ≤ g →
    clog2Fuel f n = clog2Fuel g n := by
  intro f
  induction f with
  | zero =>
    intro g n hf _
    have hn : n = 0 := by omega
    subst hn
    cases g with
    | zero => rfl
    | succ g => simp [clog2Fuel]
  | succ f ih =>
    intro g n hf hg
    cases g with
    | zero =>
      have hn : n = 0 := by omega
      subst hn
      simp [clog2Fuel]
    | succ g =>
      by_cases hn : n ≤ 1
      · simp [clog2Fuel, hn]
      · simp only [clog2Fuel, if_neg hn]
        exact congrArg (· + 1) (ih g ((n + 1) / 2) (by omega) (by omega))

theorem ceilLog2_rec {n : Nat} (h : 2 ≤ n) :
    ceilLog2 n = ceilLog2 ((n + 1) / 2) + 1 := by
  unfold ceilLog2
  obtain ⟨m, rfl⟩ : ∃ m, n = m + 1 := ⟨n - 1, by omega⟩
  simp only [clog2Fuel, if_neg (by omega : ¬ m + 1 ≤ 1)]
  congr 1
  exact clog2Fuel_congr m ((m + 2) / 2) ((m + 2) / 2) (by omega) (le_refl _)

theorem ceilLog2_spec : ∀ n, 1 ≤ n →
    n ≤ 2 ^ ceilLog2 n ∧ ∀ l, n ≤ 2 ^ l → ceilLog2 n ≤ l := by
  intro n
  induction n using Nat.strong_induction_on with
  | _ n ih =>
    intro hn
    by_cases h1 : n ≤ 1
    · have hn1 : n = 1 := by omega
      subst hn1
      exact ⟨by decide, fun l _ => by
        have h0 : ceilLog2 1 = 0 := rfl
        omega⟩
    · have h2 : 2 ≤ n := by omega
      have hrec := ceilLog2_rec h2
      have hlt : (n + 1) / 2 < n := by omega
      have hge : 1 ≤ (n + 1) / 2 := by omega
      obtain ⟨hub, hmin⟩ := ih ((n + 1) / 2) hlt hge
      constructor
      · rw [hrec]
        have hp : 2 ^ (ceilLog2 ((n + 1) / 2) + 1) = 2 * 2 ^ ceilLog2 ((n + 1) / 2) := by
          ring
        omega
      · intro l hl
        rcases l with _ | l'
        · simp at hl
          omega
        · have hstep : (n + 1) / 2 ≤ 2 ^ l' := by
            have h2l : 2 ^ (l' + 1) = 2 * 2 ^ l' := by ring
            omega
          have := hmin l' hstep
          rw [hrec]
          omega

/-! ## Helper lemmas on map sizes (for the capacity claims) -/

theorem length_insertA_le {α : Type} (l : List (Nat × α)) (k : Nat) (v : α) :
    (insertA l k v).length ≤ l.length + 1 := by
  induction l with
  | nil => simp [insertA]
  | cons q rest ih =>
    by_cases hq : q.1 = k
    · simp [insertA, hq]
    · simp only [insertA, if_neg hq, List.length_cons]
      omega

theorem insert_fold_length_le (bs : List Block) :
    ∀ init : List (Nat × Block),
      (bs.foldl (fun m b => insertA m b.block_id b) init).length ≤
        init.length + bs.length := by
  induction bs with
  | nil =>
    intro init
    simp
  | cons b rest ih =>
    intro init
    simp only [List.foldl_cons, List.length_cons]
    have h1 := ih (insertA init b.block_id b)
    have h2 := length_insertA_le init b.block_id b
    omega

/-! # The claims -/

/-- C1: Round-trip — CONFIRMED.  From any reachable well-formed state, a
`write` of payload `v` to id `id`, followed by any panic-free interleaving of
accesses none of which writes to `id`, followed by a `read` of `id`, returns
exactly `some v`. -/
theorem claim_C1_roundtrip (N : Nat) (st : PathORAM)
    (hInv : OramInv N (fun _ => true) st)
    (id : Nat) (hid1 : 1 ≤ id) (hid2 : id ≤ N) (v : Nat)
    (p1 : Nat) (hp1 : p1 < 2 ^ st.tree_height)
    (reqs : List Req) (hreqs : ∀ r ∈ reqs, ValidReq N st.tree_height r)
    (hnw : ∀ r ∈ reqs, r.op = "write" → r.id ≠ id)
    (p2 : Nat) (hp2 : p2 < 2 ^ st.tree_height) :
    ∃ st1 st2 res,
      st.access "write" id (some v) p1 = some (res, st1) ∧
      runOps st1 reqs = some st2 ∧
      (st2.access "read" id none p2).map Prod.fst = some (some v) := by
  obtain ⟨st1, hacc1, hInv1, hth1, hcap1, hlog1⟩ :=
    access_master N (fun _ => true) st hInv "write" id hid1 hid2 (some v)
      (fun _ => rfl) p1 hp1
  have hInv1' : OramInv N (fun _ => true) st1 :=
    OramInv_congr hInv1 (fun i _ _ => by by_cases hi : i = id <;> simp [hi])
  have hlogid : logicalVal st1 id = some v := by
    rw [hlog1 id hid1 hid2, if_pos ⟨rfl, rfl⟩]
  obtain ⟨st2, hrun, hInv2, hth2, hcap2, hlog2⟩ := runOps_master N reqs st1 hInv1'
    (fun r hr => by rw [hth1]; exact hreqs r hr)
  have hlogid2 : logicalVal st2 id = some v := by
    rw [hlog2 id hid1 hid2 (fun r hr hw => hnw r hr hw), hlogid]
  obtain ⟨st3, hacc3, _, _, _, _⟩ :=
    access_master N (fun _ => true) st2 hInv2 "read" id hid1 hid2 none
      (fun h => absurd h (by decide)) p2 (by rw [hth2, hth1]; exact hp2)
  refine ⟨st1, st2, logicalVal st id, hacc1, hrun, ?_⟩
  rw [hacc3]
  show some (logicalVal st2 id) = some (some v)
  rw [hlogid2]

theorem claim_C1_roundtrip_witness :
    ∃ st1 st2 res,
      oram44.access "write" 1 (some 42) 0 = some (res, st1) ∧
      runOps st1 [] = some st2 ∧
      (st2.access "read" 1 none 0).map Prod.fst = some (some 42) :=
  claim_C1_roundtrip 4 oram44 (by decide) 1 (by decide) (by decide) 42 0 (by decide)
    [] (by decide) (by decide) 0 (by decide)

/-- C2: Placement invariant — CONFIRMED.  On any instance built by `new` and
after any panic-free sequence of accesses, every real id in `1..=N` is present
in exactly one place: counting its stash entries and its occurrences in the
buckets on the root-to-leaf path of its current position-map entry gives
exactly one. -/
theorem claim_C2_placement (N Z : Nat) (hN : 1 ≤ N) (hZ : 1 ≤ Z)
    (ip bp : Nat → Nat) (hip : ∀ i, ip i < 2 ^ ceilLog2 N)
    (hbp : ∀ i, bp i < 2 ^ ceilLog2 N)
    (reqs : List Req) (hreqs : ∀ r ∈ reqs, ValidReq N (ceilLog2 N) r) :
    ∃ st0 st', PathORAM.new N Z ip bp = some st0 ∧ runOps st0 reqs = some st' ∧
      ∀ i, 1 ≤ i → i ≤ N → exactlyOnePlace st0 i ∧ exactlyOnePlace st' i := by
  obtain ⟨st0, hnew, hInv0, hth0, hcap0⟩ := new_master N Z hN hZ ip bp hip hbp
  obtain ⟨st', hrun, hInv', _, _, _⟩ := runOps_master N reqs st0 hInv0
    (fun r hr => by rw [hth0]; exact hreqs r hr)
  exact ⟨st0, st', hnew, hrun, fun i h1 h2 =>
    ⟨exactlyOnePlace_of_inv hInv0 h1 h2, exactlyOnePlace_of_inv hInv' h1 h2⟩⟩

theorem claim_C2_placement_witness :
    ∃ st0 st', PathORAM.new 1 1 zeroRng zeroRng = some st0 ∧
      runOps st0 [] = some st' ∧
      ∀ i, 1 ≤ i → i ≤ 1 → exactlyOnePlace st0 i ∧ exactlyOnePlace st' i :=
  claim_C2_placement 1 1 (by decide) (by decide) zeroRng zeroRng
    (fun _ => Nat.one_pos) (fun _ => Nat.one_pos) [] (by decide)

/-- C3: Bucket fill invariant — REFUTED (code bug).  On the instance
`new(1, 3)`, immediately after the write-back phase of a read, the rewritten
root bucket holds only 2 map entries although the capacity is 3: the bucket
stores blocks keyed by id, so the padding dummy blocks (id 0) collapse into a
single entry instead of occupying distinct slots. -/
theorem claim_C3_bucket_fill :
    ((PathORAM.new 1 3 zeroRng zeroRng).bind
      (fun st => (st.access "read" 1 none 0).map
        (fun r => (r.2.capacity, (r.2.tree.getD 0 Bucket.empty).blocks.length,
          countA (r.2.tree.getD 0 Bucket.empty).blocks 0)))
      = some (3, 2, 1)) ∧ (2 : Nat) < 3 := by decide

/-- C4 counterexample: `new` does not fully populate every bucket with Z
dummy blocks (the off-path bucket of `new(2, 3)` holds a single collapsed
dummy entry, not 3), and the bootstrap pass does not place every block on the
tree (`new(4, 1)` returns with one block still in the stash). -/
theorem claim_C4_construction_cex :
    ((PathORAM.new 2 3 zeroRng zeroRng).map
      (fun st => (st.tree.getD 2 Bucket.empty).blocks.length) = some 1 ∧
      (1 : Nat) ≠ 3) ∧
    ((PathORAM.new 4 1 zeroRng zeroRng).map (fun st => st.stash.length) = some 1 ∧
      (1 : Nat) ≠ 0) := by decide

/-- C4: Construction — CORRECTED.  `new(N, Z)` does allocate a complete
binary tree of `2^(L+1) - 1` buckets for `L = ceil(log2 N)` (characterised
here by `N ≤ 2^L` minimal), registers every id `1..=N` at an injected leaf
below `2^L`, and bootstraps with N writes after which every real block sits
in exactly one place — but that place may be the stash, the tree buckets hold
at most (not exactly) Z entries, and dummies collapse into one id-0 entry. -/
theorem claim_C4_construction (N Z : Nat) (hN : 1 ≤ N) (hZ : 1 ≤ Z)
    (ip bp : Nat → Nat) (hip : ∀ i, ip i < 2 ^ ceilLog2 N)
    (hbp : ∀ i, bp i < 2 ^ ceilLog2 N) :
    ∃ st, PathORAM.new N Z ip bp = some st ∧
      st.tree_height = ceilLog2 N ∧
      N ≤ 2 ^ ceilLog2 N ∧ (∀ l, N ≤ 2 ^ l → ceilLog2 N ≤ l) ∧
      st.tree.length = 2 ^ (ceilLog2 N + 1) - 1 ∧
      st.capacity = Z ∧
      (∀ i, 1 ≤ i → i ≤ N → (lookupA st.position_map i).isSome) ∧
      (∀ p ∈ st.position_map, p.2 < 2 ^ ceilLog2 N) ∧
      (∀ i, 1 ≤ i → i ≤ N → exactlyOnePlace st i) := by
  obtain ⟨st, hnew, hInv, hth, hcap⟩ := new_master N Z hN hZ ip bp hip hbp
  obtain ⟨hspec1, hspec2⟩ := ceilLog2_spec N hN
  obtain ⟨_, _, _, _, _, _, _, _, hlen, _⟩ := hInv.1
  refine ⟨st, hnew, hth, hspec1, hspec2, ?_, hcap, ?_, ?_, ?_⟩
  · rw [← hth]
    exact hlen
  · intro i h1 h2
    have h := hInv.2.1.2 (i - 1) (List.mem_range.mpr (by omega))
    have he : i - 1 + 1 = i := by omega
    rwa [he] at h
  · intro p hp
    have h := hInv.2.2.1 p hp
    rwa [hth] at h
  · intro i h1 h2
    exact exactlyOnePlace_of_inv hInv h1 h2

theorem claim_C4_construction_witness :
    ∃ st, PathORAM.new 1 1 zeroRng zeroRng = some st ∧
      st.tree_height = ceilLog2 1 ∧
      1 ≤ 2 ^ ceilLog2 1 ∧ (∀ l, 1 ≤ 2 ^ l → ceilLog2 1 ≤ l) ∧
      st.tree.length = 2 ^ (ceilLog2 1 + 1) - 1 ∧
      st.capacity = 1 ∧
      (∀ i, 1 ≤ i → i ≤ 1 → (lookupA st.position_map i).isSome) ∧
      (∀ p ∈ st.position_map, p.2 < 2 ^ ceilLog2 1) ∧
      (∀ i, 1 ≤ i → i ≤ 1 → exactlyOnePlace st i) :=
  claim_C4_construction 1 1 (by decide) (by decide) zeroRng zeroRng
    (fun _ => Nat.one_pos) (fun _ => Nat.one_pos)

/-- C5: previousData semantics — CONFIRMED.  Every panic-free access returns
the block's logical data value as it was before the operation: a read leaves
the stored value unchanged and returns it, and a write returns the value it
replaces while updating the stored value to the new payload. -/
theorem claim_C5_previous_data (N : Nat) (st : PathORAM)
    (hInv : OramInv N (fun _ => true) st) (op : String) (id : Nat)
    (hid1 : 1 ≤ id) (hid2 : id ≤ N) (d : Option Nat)
    (hd : op = "write" → d.isSome) (pos : Nat) (hpos : pos < 2 ^ st.tree_height) :
    ∃ st', st.access op id d pos = some (logicalVal st id, st') ∧
      logicalVal st' id = (if op = "write" then d else logicalVal st id) := by
  obtain ⟨st', hacc, _, _, _, hlog⟩ :=
    access_master N (fun _ => true) st hInv op id hid1 hid2 d hd pos hpos
  refine ⟨st', hacc, ?_⟩
  rw [hlog id hid1 hid2]
  by_cases hw : op = "write"
  · rw [if_pos ⟨rfl, hw⟩, if_pos hw]
  · rw [if_neg (fun hh => hw hh.2), if_neg hw]

theorem claim_C5_previous_data_witness :
    ∃ st', oram11.access "write" 1 (some 7) 0 = some (logicalVal oram11 1, st') ∧
      logicalVal st' 1 = (if "write" = "write" then some 7 else logicalVal oram11 1) :=
  claim_C5_previous_data 1 oram11 (by decide) "write" 1 (by decide) (by decide)
    (some 7) (fun _ => rfl) 0 (by decide)

/-- C6 counterexample: on the freshly built instance `new(4, 4)`, an access
with id 0 and one with id 5 (> N) both panic (`None` in the model) — no value
of any kind, in particular no typed `UnknownBlock` error, reaches the
caller. -/
theorem claim_C6_unknown_block_cex :
    (PathORAM.new 4 4 zeroRng zeroRng).map
      (fun st => (st.access "read" 0 none 0, st.access "read" 5 none 0)) =
      some (none, none) := by decide

/-- C6: Unknown-block boundary — CORRECTED.  For any well-formed instance,
an access with id 0 or id > N does fail, but by panicking on the position-map
`unwrap` (modelled as `none`), not by returning a typed `UnknownBlock` error:
the function's return type has no error variant at all. -/
theorem claim_C6_unknown_block (N : Nat) (placed : Nat → Bool) (st : PathORAM)
    (hInv : OramInv N placed st) (op : String) (d : Option Nat) (pos : Nat)
    (id : Nat) (hid : id = 0 ∨ N < id) :
    st.access op id d pos = none := by
  have hnone : lookupA st.position_map id = none := by
    cases he : lookupA st.position_map id with
    | none => rfl
    | some v =>
      obtain ⟨h1, h2⟩ := hInv.2.1.1 (id, v) (lookupA_mem he)
      rcases hid with h | h
      · omega
      · omega
  unfold PathORAM.access
  rw [hnone]

theorem claim_C6_unknown_block_witness :
    oram44.access "read" 0 none 0 = none :=
  claim_C6_unknown_block 4 (fun _ => true) oram44 (by decide) "read" none 0 0
    (Or.inl rfl)

/-- C7 counterexample: on a registered-but-never-placed instance (the state
of `new(1, 1)` just before its bootstrap pass), a read of id 1 succeeds and
silently returns no value (`Some (None, ·)`): there is no `Corruption`
failure anywhere in the code. -/
theorem claim_C7_corruption_cex :
    (preBoot11.access "read" 1 none 0).map Prod.fst = some none := by decide

/-- C7: Corruption on missing block — CORRECTED.  When the requested id is
absent from the stash after the path-read phase (here: a registered id that
has never been placed), the access does not fail with a `Corruption` error —
it completes normally and silently returns no value. -/
theorem claim_C7_missing_block (N : Nat) (placed : Nat → Bool) (st : PathORAM)
    (hInv : OramInv N placed st) (id : Nat) (hid1 : 1 ≤ id) (hid2 : id ≤ N)
    (hnp : placed id = false) (pos : Nat) (hpos : pos < 2 ^ st.tree_height) :
    ∃ st', st.access "read" id none pos = some (none, st') := by
  have hlog : logicalVal st id = none := by
    have hreg : (lookupA st.position_map id).isSome := by
      have h := hInv.2.1.2 (id - 1) (List.mem_range.mpr (by omega))
      have he : id - 1 + 1 = id := by omega
      rwa [he] at h
    obtain ⟨pi, hpi⟩ := Option.isSome_iff_exists.mp hreg
    have htc : totalCount st id = if placed id then 1 else 0 :=
      hInv.2.2.2.1 (id, pi) (lookupA_mem hpi)
    rw [hnp] at htc
    unfold logicalVal
    rw [logical_none_of_total (by simpa using htc)]
    rfl
  obtain ⟨st', hacc, _, _, _, _⟩ :=
    access_master N placed st hInv "read" id hid1 hid2 none
      (fun h => absurd h (by decide)) pos hpos
  rw [hlog] at hacc
  exact ⟨st', hacc⟩

theorem claim_C7_missing_block_witness :
    ∃ st', preBoot11.access "read" 1 none 0 = some (none, st') :=
  claim_C7_missing_block 1 (fun _ => false) preBoot11 (by decide) 1 (by decide)
    (by decide) rfl 0 (by decide)

/-- C8: Stash-statistics tabulation — REFUTED (code bug).  With a single
measured access of stash size 0, the emitted record is
`[(-1, 1), (0, 1)]`: the line for R = 0 carries count 1, yet the number of
measured accesses whose stash size is strictly greater than 0 is 0.  The
code pairs R with the count of accesses of size ≥ R (the running sum is
decremented only after the pair is pushed), not > R as claimed. -/
theorem claim_C8_bench_tabulation :
    benchLines [0] 1 = [(-1, 1), (0, 1)] ∧
    specCountStrictlyGreater [0] 0 = 0 ∧ (1 : Nat) ≠ 0 := by decide

/-- C9: Non-write operations — CONFIRMED.  `access` inspects the operation
string only through the single test `op == "write"`: for every op other than
`"write"` the call is literally the same computation as a `"read"` — no
mutation of the block and no rejection of the unknown name. -/
theorem claim_C9_non_write_ops (st : PathORAM) (op : String) (hop : op ≠ "write")
    (id : Nat) (d : Option Nat) (pos : Nat) :
    st.access op id d pos = st.access "read" id d pos := by
  unfold PathORAM.access
  cases lookupA st.position_map id with
  | none => rfl
  | some old => simp [hop]

theorem claim_C9_non_write_ops_witness :
    oram44.access "frobnicate" 1 none 0 = oram44.access "read" 1 none 0 :=
  claim_C9_non_write_ops oram44 "frobnicate" (by decide) 1 none 0

/-- C10: Bucket capacity — CONFIRMED.  A bucket never exceeds its capacity:
`replace_blocks` keeps at most the first `capacity` supplied blocks and
silently drops the rest, and `add_block` on a full bucket first evicts the
map's first entry (silently discarding that block) before inserting the new
one, which is then retrievable under its id. -/
theorem claim_C10_capacity (bk : Bucket) (bs : List Block) (b : Block)
    (hnd : (bk.blocks.map Prod.fst).Nodup) (hlen : bk.blocks.length ≤ bk.capacity) :
    (bk.replace_blocks bs).blocks.length ≤ bk.capacity ∧
    bk.replace_blocks bs = bk.replace_blocks (bs.take bk.capacity) ∧
    (∀ bk', bk.add_block b = some bk' →
      bk'.blocks.length ≤ bk.capacity ∧ lookupA bk'.blocks b.block_id = some b) ∧
    (∀ fk fb rest, bk.blocks = (fk, fb) :: rest → bk.capacity ≤ bk.blocks.length →
      fk ≠ b.block_id → ∀ bk', bk.add_block b = some bk' →
        lookupA bk'.blocks fk = none) := by
  refine ⟨?_, ?_, ?_, ?_⟩
  · have h2 := insert_fold_length_le (bs.take bk.capacity) []
    have h3 : (bs.take bk.capacity).length ≤ bk.capacity := by
      rw [List.length_take]
      exact Nat.min_le_left _ _
    simp only [List.length_nil, Nat.zero_add] at h2
    exact le_trans h2 h3
  · unfold Bucket.replace_blocks
    rw [List.take_take, Nat.min_self]
  · intro bk' hadd
    unfold Bucket.add_block at hadd
    by_cases hc : bk.capacity ≤ bk.blocks.length
    · rw [if_pos hc] at hadd
      rcases hbk : bk.blocks with _ | ⟨⟨fk, fb⟩, rest⟩
      · rw [hbk] at hadd
        exact absurd hadd (by simp)
      · rw [hbk] at hadd
        injection hadd with h
        subst h
        have her : eraseA ((fk, fb) :: rest) fk = rest := by simp [eraseA]
        constructor
        · show (insertA (eraseA ((fk, fb) :: rest) fk) b.block_id b).length ≤ bk.capacity
          rw [her]
          have h4 := length_insertA_le rest b.block_id b
          have h5 : bk.blocks.length = rest.length + 1 := by rw [hbk]; rfl
          omega
        · exact lookupA_insertA_self _ _ _
    · rw [if_neg hc] at hadd
      injection hadd with h
      subst h
      constructor
      · show (insertA bk.blocks b.block_id b).length ≤ bk.capacity
        have h4 := length_insertA_le bk.blocks b.block_id b
        omega
      · exact lookupA_insertA_self _ _ _
  · intro fk fb rest hbk hc hne bk' hadd
    unfold Bucket.add_block at hadd
    rw [if_pos hc, hbk] at hadd
    injection hadd with h
    subst h
    show lookupA (insertA (eraseA ((fk, fb) :: rest) fk) b.block_id b) fk = none
    have her : eraseA ((fk, fb) :: rest) fk = rest := by simp [eraseA]
    rw [her, lookupA_insertA_ne rest b (fun hh => hne hh)]
    rw [hbk] at hnd
    have hfk : fk ∉ rest.map Prod.fst := by
      simp only [List.map_cons] at hnd
      exact (List.nodup_cons.mp hnd).1
    exact (lookupA_eq_none_iff rest fk).mpr hfk

theorem claim_C10_capacity_witness :
    lookupA (Bucket.mk [(7, ⟨7, 7⟩)] 1).blocks 1 = none ∧
    lookupA (Bucket.mk [(7, ⟨7, 7⟩)] 1).blocks 7 = some ⟨7, 7⟩ ∧
    (Bucket.mk [(7, ⟨7, 7⟩)] 1).blocks.length ≤ 1 :=
  have h := claim_C10_capacity ⟨[(1, ⟨1, 5⟩)], 1⟩ [⟨2, 2⟩, ⟨3, 3⟩] ⟨7, 7⟩
    (by decide) (by decide)
  ⟨h.2.2.2 1 ⟨1, 5⟩ [] rfl (by decide) (by decide) ⟨[(7, ⟨7, 7⟩)], 1⟩ (by decide),
   (h.2.2.1 ⟨[(7, ⟨7, 7⟩)], 1⟩ (by decide)).2,
   (h.2.2.1 ⟨[(7, ⟨7, 7⟩)], 1⟩ (by decide)).1⟩
